import Mathlib

/-!
Shallow embedding of the `hamster` relational wrapper over Deno KV
(`src/database.ts`, with the variant generator of `src/table.ts`).

A logical row is stored as one physical entry per column under the key
`[tableName, rowId, columnName]`.  The store is modelled as an association
list from keys to (value, versionstamp) pairs together with a counter
supplying fresh versionstamps; an atomic commit checks a list of
key/versionstamp preconditions and applies its mutations only when all of
them hold.  Key parts are restricted to the two shapes the code base ever
produces or reads back (strings and bigints, the latter modelled as `Int`);
Deno KV orders strings before bigints.
-/

namespace Hamster

/-- Decidable equality of `Except` results, for evaluating the operations
on concrete inputs. -/
instance {ε α : Type} [DecidableEq ε] [DecidableEq α] :
    DecidableEq (Except ε α) := fun x y =>
  match x, y with
  | .error a, .error b =>
    if h : a = b then .isTrue (by rw [h])
    else .isFalse (by intro hh; exact h (Except.error.inj hh))
  | .error _, .ok _ => .isFalse (by intro hh; exact Except.noConfusion hh)
  | .ok _, .error _ => .isFalse (by intro hh; exact Except.noConfusion hh)
  | .ok a, .ok b =>
    if h : a = b then .isTrue (by rw [h])
    else .isFalse (by intro hh; exact h (Except.ok.inj hh))

/-- Component of a Deno KV key: a string or a bigint (modelled as `Int`). -/
inductive KeyPart where
  | str (s : String)
  | int (n : Int)
deriving DecidableEq

/-- A Deno KV key is a tuple of parts. -/
abbrev Key := List KeyPart

/-- Strict order on key parts: Deno KV sorts strings before bigints,
strings lexicographically and bigints numerically. -/
def KeyPart.ltb : KeyPart → KeyPart → Bool
  | .str a, .str b => decide (a < b)
  | .str _, .int _ => true
  | .int _, .str _ => false
  | .int a, .int b => decide (a < b)

/-- Strict lexicographic order on keys (a proper prefix sorts first). -/
def Key.ltb : Key → Key → Bool
  | [], [] => false
  | [], _ :: _ => true
  | _ :: _, [] => false
  | a :: as, b :: bs => KeyPart.ltb a b || (decide (a = b) && Key.ltb as bs)

/-- Does key `k` properly extend key `p` (so that `k` is selected by a
Deno KV prefix selector for `p`)? -/
def keyExtends : Key → Key → Bool
  | [], [] => false
  | [], _ :: _ => true
  | _ :: _, [] => false
  | a :: as, b :: bs => decide (a = b) && keyExtends as bs

/-- Value stored in a column entry (the subset of structured-clone values
used here: bigints, strings and booleans). -/
inductive Value where
  | vint (n : Int)
  | vstr (s : String)
  | vbool (b : Bool)
deriving DecidableEq

/-- A stored entry: key, value and the versionstamp of its last write. -/
abbrev Entry := Key × Value × Nat

/-- The Deno KV store: current entries plus a counter producing fresh
versionstamps (opaque tokens compared only for equality). -/
structure Store where
  entries : List Entry
  nextStamp : Nat
deriving DecidableEq

/-- The empty store. -/
def emptyStore : Store := ⟨[], 0⟩

/-- Lookup of a single key (`Deno.Kv.get`): value and versionstamp, or
`none` when absent. -/
def Store.get (s : Store) (k : Key) : Option (Value × Nat) :=
  match s.entries.find? (fun e => decide (e.1 = k)) with
  | some e => some e.2
  | none => none

/-- Versionstamp currently associated with a key, `none` when absent. -/
def Store.stampOf (s : Store) (k : Key) : Option Nat :=
  (s.get k).map (fun x => x.2)

/-- One step of scanning for the greatest key: keep the larger entry. -/
def lastFoldStep (acc : Option Entry) (e : Entry) : Option Entry :=
  match acc with
  | none => some e
  | some m => if Key.ltb m.1 e.1 then some e else some m

/-- Last entry under a prefix: `Deno.Kv.list({ prefix }, { limit: 1,
reverse: true })` followed by one `next()` call. -/
def Store.lastEntryOf (s : Store) (p : Key) : Option Entry :=
  (s.entries.filter (fun e => keyExtends p e.1)).foldl lastFoldStep none

/-- An atomic check (`Deno.AtomicCheck`): the expected versionstamp of a
key, `none` demanding that the key be absent. -/
abbrev AtomicCheck := Key × Option Nat

/-- A write operation queued on an atomic transaction. -/
inductive Mutation where
  | set (k : Key) (v : Value)
  | del (k : Key)
deriving DecidableEq

/-- An atomic transaction: all checks must hold for the mutations to be
applied, all-or-nothing. -/
structure AtomicOp where
  checks : List AtomicCheck
  mutations : List Mutation
deriving DecidableEq

/-- Does a single atomic check hold against the store? -/
def Store.checkOk (s : Store) (c : AtomicCheck) : Bool :=
  decide (s.stampOf c.1 = c.2)

/-- Write a key into an entry list: replace the existing entry in place,
else append. -/
def setEntryList (l : List Entry) (k : Key) (v : Value) (st : Nat) :
    List Entry :=
  match l with
  | [] => [(k, v, st)]
  | e :: rest =>
    if e.1 = k then (k, v, st) :: rest else e :: setEntryList rest k v st

/-- Write a key (replacing an existing entry in place, else appending). -/
def Store.setEntry (s : Store) (k : Key) (v : Value) (st : Nat) : Store :=
  { s with entries := setEntryList s.entries k v st }

/-- Remove a key (a no-op when the key is absent). -/
def Store.delEntry (s : Store) (k : Key) : Store :=
  { s with entries := s.entries.filter (fun e => !decide (e.1 = k)) }

/-- Apply one mutation, stamping writes with `st`. -/
def Store.applyMut (s : Store) (st : Nat) : Mutation → Store
  | .set k v => s.setEntry k v st
  | .del k => s.delEntry k

/-- The key a mutation acts on. -/
def mutKey : Mutation → Key
  | .set k _ => k
  | .del k => k

/-- Apply a list of mutations in order, stamping writes with `st`. -/
def applyMuts (s : Store) (st : Nat) (muts : List Mutation) : Store :=
  muts.foldl (fun acc m => acc.applyMut st m) s

/-- Commit an atomic transaction: when every check holds, apply the
mutations (stamped with the current counter) and bump the counter,
returning `true`; otherwise leave the store untouched and return
`false` (the `{ ok: false }` commit result). -/
def Store.commit (s : Store) (op : AtomicOp) : Bool × Store :=
  if op.checks.all (fun c => s.checkOk c) then
    let s1 := applyMuts s s.nextStamp op.mutations
    (true, { s1 with nextStamp := s.nextStamp + 1 })
  else
    (false, s)

/-- Column value type as declared in a table schema (a closed universe of
representative Zod column types). -/
inductive ColType where
  | cInt
  | cStr
  | cBool
deriving DecidableEq

/-- Does a value conform to a declared column type? -/
def Value.hasType : Value → ColType → Bool
  | .vint _, .cInt => true
  | .vstr _, .cStr => true
  | .vbool _, .cBool => true
  | _, _ => false

/-- A JavaScript object modelled as an association list in property order. -/
abbrev RowObj := List (String × Value)

/-- Property lookup on an object-as-association-list. -/
def lookupStr {α : Type} (l : List (String × α)) (k : String) : Option α :=
  (l.find? (fun e => decide (e.1 = k))).map (fun e => e.2)

/-- Property assignment on an object-as-association-list: overwrite in
place when the key exists, append otherwise (JavaScript semantics). -/
def objSet {α : Type} (l : List (String × α)) (k : String) (v : α) :
    List (String × α) :=
  if l.any (fun e => decide (e.1 = k)) then
    l.map (fun e => if e.1 = k then (k, v) else e)
  else
    l ++ [(k, v)]

/-- Database options: the fixed table schemas (`Options` of `main.ts`). -/
structure Options where
  tables : List (String × List (String × ColType))

/-- Resolve a table name to its column set (`Database.#getTableSchema`),
`none` when no such table is declared. -/
def lookupTable (o : Options) (name : String) :
    Option (List (String × ColType)) :=
  lookupStr o.tables name

/-- Errors thrown (as opposed to returned) by the operations. -/
inductive Err where
  | validationError (msg : String)
  | unknownTable (name : String)
  | rowNotFound (id : Int) (table : String)
  | corruptData (msg : String)
  | jsTypeError (msg : String)
deriving DecidableEq

/-- Result of `lastId + 1n` in JavaScript when `lastId` is the raw key
component: bigints add numerically, while a string operand makes `+`
concatenate (`"x" + 1n` evaluates to `"x1"`), so no error is raised. -/
def jsBigAddOne : KeyPart → KeyPart
  | .int n => .int (n + 1)
  | .str a => .str (a ++ "1")

/-- Key of one column entry of a row. -/
def colKey (name : String) (id : Int) (c : String) : Key :=
  [.str name, .int id, .str c]

/-- Translation of `Database.#generateRowId`: read the last entry under
the table prefix; with no entry the new id is `1n` and the returned
check demands that key `[name, 1n]` be absent; otherwise the id is the
second key component plus `1n` (an unchecked cast: `value.key.at(1) as
bigint`) and the returned check pins the observed entry's versionstamp. -/
def generateRowId (name : String) (s : Store) :
    Except Err (KeyPart × AtomicCheck) :=
  match s.lastEntryOf [.str name] with
  | none => .ok (.int 1, ([.str name, .int 1], none))
  | some (k, _, st) =>
    match k[1]? with
    | none => .error (.jsTypeError "cannot mix BigInt and other types")
    | some p => .ok (jsBigAddOne p, (k, some st))

/-- Translation of `Table.#generateRowId` of `table.ts`: same read, but
with an explicit runtime check that the extracted id component is a
bigint, throwing the corrupt-data error otherwise. -/
def tableGenerateRowId (name : String) (s : Store) : Except Err KeyPart :=
  match s.lastEntryOf [.str name] with
  | none => .ok (.int 1)
  | some (k, _, _) =>
    match k[1]? with
    | some (KeyPart.int n) => .ok (.int (n + 1))
    | some (KeyPart.str _) =>
      .error (.corruptData "expected last id of type bigint")
    | none => .error (.corruptData "expected last id of type bigint")

/-- Strict insert validation (`schema.strict().parse(row)`): every
declared column present with a conforming value, no undeclared fields. -/
def validateInsert (cols : List (String × ColType)) (row : RowObj) : Bool :=
  cols.all (fun c =>
    match lookupStr row c.1 with
    | some v => v.hasType c.2
    | none => false) &&
  row.all (fun f => cols.any (fun c => decide (c.1 = f.1)))

/-- Fields of a candidate that name a declared column: Zod objects parse
in strip mode by default, silently dropping unknown keys. -/
def stripRow (cols : List (String × ColType)) (row : RowObj) : RowObj :=
  row.filter (fun f => cols.any (fun c => decide (c.1 = f.1)))

/-- Update-row validation (`schema.partial().refine(isNonempty)`): each
present declared field must conform to its column type; undeclared
fields are stripped, not rejected; the refinement then demands that the
stripped object be nonempty. -/
def validateUpdateRow (cols : List (String × ColType)) (row : RowObj) :
    Option Err :=
  if row.all (fun f =>
      match lookupStr cols f.1 with
      | some t => f.2.hasType t
      | none => true) then
    if (stripRow cols row).isEmpty then
      some (.validationError "row must update at least one column")
    else
      none
  else
    some (.validationError "column value does not match column type")

/-- Entry of the caller-supplied `condition.versionstamps` object for one
column: absent key, explicit `undefined`, explicit `null`, or a
versionstamp string. -/
inductive VsEntry where
  | vsUndef
  | vsNull
  | vsStamp (st : Nat)
deriving DecidableEq

/-- Write condition (`WriteCondition`): row id plus the optional
per-column expected versionstamps. -/
structure WriteCondition where
  id : Int
  versionstamps : Option (List (String × VsEntry))

/-- Validation of a write condition (`#verifyRowConditionWrite`): the id
must be positive and every versionstamps key must name a declared
column. -/
def validateWriteCondition (cols : List (String × ColType))
    (wc : WriteCondition) : Bool :=
  decide (0 < wc.id) &&
  (match wc.versionstamps with
   | none => true
   | some l => l.all (fun e => cols.any (fun c => decide (c.1 = e.1))))

/-- Atomic checks contributed by `condition.versionstamps`: entries whose
value is strictly different from `undefined` each yield one check
(`null` demanding absence), entries that are `undefined` are skipped. -/
def condChecks (name : String) (id : Int)
    (vs : Option (List (String × VsEntry))) : List AtomicCheck :=
  match vs with
  | none => []
  | some l =>
    l.filterMap (fun e =>
      match e.2 with
      | .vsUndef => none
      | .vsNull => some (colKey name id e.1, none)
      | .vsStamp st => some (colKey name id e.1, some st))

/-- Outcome of an insert: the new id together with the commit
versionstamp, or the `{ ok: false }` commit error. -/
inductive InsertOutcome where
  | committed (id : KeyPart) (versionstamp : Nat)
  | conflict
deriving DecidableEq

/-- Outcome of an update or delete commit. -/
inductive CommitOutcome where
  | committed (versionstamp : Nat)
  | conflict
deriving DecidableEq

/-- The atomic transaction built by `insert`: exactly the id-generation
precondition, followed by one set per field of the candidate row. -/
def insertAtomicOp (name : String) (id : KeyPart) (lastRow : AtomicCheck)
    (row : RowObj) : AtomicOp :=
  { checks := [lastRow]
    mutations := row.map (fun f => .set [.str name, id, .str f.1] f.2) }

/-- Translation of `Database.insert`: resolve the table, validate the row
strictly, generate the id and its precondition, then commit one atomic
transaction writing one entry per column. -/
def insert (o : Options) (name : String) (row : RowObj) (s : Store) :
    Except Err InsertOutcome × Store :=
  match lookupTable o name with
  | none => (.error (.unknownTable name), s)
  | some cols =>
    if validateInsert cols row then
      match generateRowId name s with
      | .error e => (.error e, s)
      | .ok (id, lastRow) =>
        let r := s.commit (insertAtomicOp name id lastRow row)
        if r.1 then
          (.ok (.committed id s.nextStamp), r.2)
        else
          (.ok .conflict, r.2)
    else
      (.error (.validationError "row does not match table schema"), s)

/-- Read condition: the row id. -/
structure ReadCondition where
  id : Int

/-- Validation of the optional `columns` argument of `read`: when given,
it must be nonempty and every key must name a declared column. -/
def columnsArgOk (cols : List (String × ColType))
    (arg : Option (List String)) : Bool :=
  match arg with
  | none => true
  | some l => !l.isEmpty && l.all (fun c => cols.any (fun d => decide (d.1 = c)))

/-- The columns actually fetched by `read`: the requested subset when one
was given (and nonempty), else all declared columns. -/
def reqColsOf (cols : List (String × ColType)) (arg : Option (List String)) :
    List String :=
  match arg with
  | some l => if l.isEmpty then cols.map (fun c => c.1) else l
  | none => cols.map (fun c => c.1)

/-- Result of `read`: `value` is `none` exactly when the row does not
exist, and `versionstamps` covers every requested column, `none` marking
an absent column. -/
structure RowResult where
  id : Int
  value : Option RowObj
  versionstamps : List (String × Option Nat)
deriving DecidableEq

/-- The loop body of `read`: partition the fetched entries, building the
row object from present entries and the versionstamp object over all of
them (absent columns mapped to `null`, not omitted). -/
def buildRowVs (results : List (String × Option (Value × Nat))) :
    RowObj × List (String × Option Nat) :=
  results.foldl
    (fun acc r =>
      match r.2 with
      | some (v, st) => (objSet acc.1 r.1 v, objSet acc.2 r.1 (some st))
      | none => (acc.1, objSet acc.2 r.1 none))
    ([], [])

/-- Translation of `Database.read`: resolve the table, validate the
condition id and the optional column subset, fetch one entry per
requested column, and assemble the row result (the no-row result when
no requested column is present). -/
def read (o : Options) (name : String) (cond : ReadCondition)
    (columns : Option (List String)) (s : Store) : Except Err RowResult :=
  match lookupTable o name with
  | none => .error (.unknownTable name)
  | some cols =>
    if decide (0 < cond.id) then
      if columnsArgOk cols columns then
        let req := reqColsOf cols columns
        let results := req.map (fun c => (c, s.get (colKey name cond.id c)))
        let rv := buildRowVs results
        if rv.1.isEmpty then
          .ok { id := cond.id, value := none, versionstamps := rv.2 }
        else
          .ok { id := cond.id, value := some rv.1, versionstamps := rv.2 }
      else
        .error (.validationError "columns must be a nonempty subset")
    else
      .error (.validationError "id must be positive")

/-- The pre-read of `update`: one fetch per declared column of the row. -/
def colEntries (name : String) (id : Int)
    (cols : List (String × ColType)) (s : Store) :
    List (Key × Option (Value × Nat)) :=
  cols.map (fun c => (colKey name id c.1, s.get (colKey name id c.1)))

/-- The atomic transaction built by `update`: the caller-supplied
condition checks, then one check per declared column pinning the
versionstamp observed in the pre-read (`null` for absent columns), then
one set per field of the partial row. -/
def updateAtomicOp (name : String) (cond : WriteCondition)
    (entries : List (Key × Option (Value × Nat))) (row : RowObj) : AtomicOp :=
  { checks :=
      condChecks name cond.id cond.versionstamps ++
        entries.map (fun e => (e.1, e.2.map (fun x => x.2)))
    mutations := row.map (fun f => .set (colKey name cond.id f.1) f.2) }

/-- Translation of `Database.update`: resolve the table, validate the
condition and the partial row, pre-read every declared column, fail with
the row-not-found error when no column is present, else commit the
atomic transaction. -/
def update (o : Options) (name : String) (cond : WriteCondition)
    (row : RowObj) (s : Store) : Except Err CommitOutcome × Store :=
  match lookupTable o name with
  | none => (.error (.unknownTable name), s)
  | some cols =>
    if validateWriteCondition cols cond then
      match validateUpdateRow cols row with
      | some e => (.error e, s)
      | none =>
        let entries := colEntries name cond.id cols s
        if (entries.filter (fun e => e.2.isSome)).isEmpty then
          (.error (.rowNotFound cond.id name), s)
        else
          let r := s.commit (updateAtomicOp name cond entries row)
          if r.1 then
            (.ok (.committed s.nextStamp), r.2)
          else
            (.ok .conflict, r.2)
    else
      (.error (.validationError "invalid write condition"), s)

/-- The atomic transaction built by `delete`: only the caller-supplied
condition checks, then one delete per declared column (no existence
check and no pre-read). -/
def deleteAtomicOp (name : String) (cond : WriteCondition)
    (cols : List (String × ColType)) : AtomicOp :=
  { checks := condChecks name cond.id cond.versionstamps
    mutations := cols.map (fun c => .del (colKey name cond.id c.1)) }

/-- Translation of `Database.delete`: resolve the table, validate the
condition, then commit the atomic transaction deleting every declared
column entry of the row. -/
def delete (o : Options) (name : String) (cond : WriteCondition)
    (s : Store) : Except Err CommitOutcome × Store :=
  match lookupTable o name with
  | none => (.error (.unknownTable name), s)
  | some cols =>
    if validateWriteCondition cols cond then
      let r := s.commit (deleteAtomicOp name cond cols)
      if r.1 then
        (.ok (.committed s.nextStamp), r.2)
      else
        (.ok .conflict, r.2)
    else
      (.error (.validationError "invalid write condition"), s)

/-- Run a list of inserts sequentially against a store. -/
def insertRun (o : Options) (name : String) (rows : List RowObj)
    (s : Store) : List (Except Err InsertOutcome) × Store :=
  match rows with
  | [] => ([], s)
  | r :: rest =>
    let x := insert o name r s
    let y := insertRun o name rest x.2
    (x.1 :: y.1, y.2)

/-- The keys currently stored are pairwise distinct (the store is a map). -/
def keysNodup (s : Store) : Prop :=
  (s.entries.map (fun e => e.1)).Nodup

/-- Invariant of a store holding one table `t` after `K` sequential
inserts with no deletes: keys are distinct, every entry is a column
entry of `t` with id between `1` and `K`, the store is empty when
`K = 0`, and some entry carries id `K` when `K > 0`. -/
def tableInv (t : String) (K : Nat) (s : Store) : Prop :=
  keysNodup s ∧
  (∀ e ∈ s.entries, ∃ i c,
    e.1 = [KeyPart.str t, KeyPart.int i, KeyPart.str c] ∧ 1 ≤ i ∧ i ≤ (K : Int)) ∧
  (K = 0 → s.entries = []) ∧
  (0 < K → ∃ e ∈ s.entries, ∃ c,
    e.1 = [KeyPart.str t, KeyPart.int (K : Int), KeyPart.str c])

/-- A one-table database: table `t` with a single string column `a`. -/
def oneTable : Options := ⟨[("t", [("a", .cStr)])]⟩

/-- A valid row for `oneTable`. -/
def rowFirst : RowObj := [("a", .vstr "first")]

/-- A second valid row for `oneTable`. -/
def rowSecond : RowObj := [("a", .vstr "second")]

/-- A third valid row for `oneTable`. -/
def rowThird : RowObj := [("a", .vstr "third")]

/-- The store after inserting `rowFirst` into the empty store. -/
def storeAfterFirst : Store := (insert oneTable "t" rowFirst emptyStore).2

/-- The store after additionally inserting `rowSecond`. -/
def storeAfterSecond : Store :=
  (insert oneTable "t" rowSecond storeAfterFirst).2

/-- The store after additionally deleting the row with the greatest id. -/
def storeAfterDelete : Store :=
  (delete oneTable "t" ⟨2, none⟩ storeAfterSecond).2

/-- Both racing inserts read the empty store, so both build their atomic
transaction from the same id-generation result; this is that result's
precondition (the absence check at key `[t, 1n]`). -/
def raceCheck : AtomicCheck := ([.str "t", .int 1], none)

/-- Store after the first racing insert's commit. -/
def raceStoreOne : Store :=
  (emptyStore.commit (insertAtomicOp "t" (.int 1) raceCheck rowFirst)).2

/-- Store after the second racing insert's commit (its precondition was
also computed against the empty store). -/
def raceStoreTwo : Store :=
  (raceStoreOne.commit (insertAtomicOp "t" (.int 1) raceCheck rowSecond)).2

/-- A store holding one row of `oneTable` with id `1`. -/
def storeOneRow : Store :=
  ⟨[([.str "t", .int 1, .str "a"], .vstr "x", 0)], 1⟩

/-- An update candidate with one declared field and one undeclared
field `b`. -/
def rowWithExtra : RowObj := [("a", .vstr "y"), ("b", .vstr "z")]

/-- A store whose last entry under the table prefix has a string (not
bigint) id component, as left by external tampering. -/
def storeCorrupt : Store :=
  ⟨[([.str "t", .str "x"], .vstr "v", 0)], 1⟩

lemma partLtb_irrefl (a : KeyPart) : KeyPart.ltb a a = false := by
  cases a <;> simp [KeyPart.ltb]

lemma partLtb_trans {a b c : KeyPart} (h1 : KeyPart.ltb a b = true)
    (h2 : KeyPart.ltb b c = true) : KeyPart.ltb a c = true := by
  cases a <;> cases b <;> cases c <;> simp_all [KeyPart.ltb]
  · exact lt_trans h1 h2
  · exact lt_trans h1 h2

lemma partLtb_tri (a b : KeyPart) :
    KeyPart.ltb a b = true ∨ KeyPart.ltb b a = true ∨ a = b := by
  cases a with
  | str x =>
    cases b with
    | str y =>
      simp only [KeyPart.ltb, decide_eq_true_eq, KeyPart.str.injEq]
      rcases lt_trichotomy x y with h | h | h
      · exact Or.inl h
      · exact Or.inr (Or.inr h)
      · exact Or.inr (Or.inl h)
    | int y => exact Or.inl rfl
  | int x =>
    cases b with
    | str y => exact Or.inr (Or.inl rfl)
    | int y =>
      simp only [KeyPart.ltb, decide_eq_true_eq, KeyPart.int.injEq]
      omega

lemma keyLtb_irrefl (k : Key) : Key.ltb k k = false := by
  induction k with
  | nil => rfl
  | cons a as ih => simp [Key.ltb, partLtb_irrefl, ih]

lemma keyLtb_trans {a b c : Key} (h1 : Key.ltb a b = true)
    (h2 : Key.ltb b c = true) : Key.ltb a c = true := by
  induction a generalizing b c with
  | nil =>
    cases b with
    | nil => simp [Key.ltb] at h1
    | cons x xs =>
      cases c with
      | nil => simp [Key.ltb] at h2
      | cons y ys => simp [Key.ltb]
  | cons a as ih =>
    cases b with
    | nil => simp [Key.ltb] at h1
    | cons x xs =>
      cases c with
      | nil => simp [Key.ltb] at h2
      | cons y ys =>
        simp only [Key.ltb, Bool.or_eq_true, Bool.and_eq_true,
          decide_eq_true_eq] at h1 h2 ⊢
        rcases h1 with h1 | ⟨hab, h1⟩
        · rcases h2 with h2 | ⟨hbc, h2⟩
          · exact Or.inl (partLtb_trans h1 h2)
          · exact Or.inl (hbc ▸ h1)
        · rcases h2 with h2 | ⟨hbc, h2⟩
          · exact Or.inl (hab ▸ h2)
          · exact Or.inr ⟨hab.trans hbc, ih h1 h2⟩

lemma keyLtb_tri (a b : Key) :
    Key.ltb a b = true ∨ Key.ltb b a = true ∨ a = b := by
  induction a generalizing b with
  | nil =>
    cases b with
    | nil => exact Or.inr (Or.inr rfl)
    | cons y ys => exact Or.inl rfl
  | cons a as ih =>
    cases b with
    | nil => exact Or.inr (Or.inl rfl)
    | cons y ys =>
      rcases partLtb_tri a y with h | h | h
      · exact Or.inl (by simp [Key.ltb, h])
      · exact Or.inr (Or.inl (by simp [Key.ltb, h]))
      · rcases ih ys with h2 | h2 | h2
        · exact Or.inl (by simp [Key.ltb, h, h2])
        · exact Or.inr (Or.inl (by simp [Key.ltb, h, h2]))
        · exact Or.inr (Or.inr (by rw [h, h2]))

lemma keyLtb_asymm {a b : Key} (h : Key.ltb a b = true) :
    Key.ltb b a = false := by
  by_contra hc
  have hba : Key.ltb b a = true := by
    cases hh : Key.ltb b a
    · exact absurd hh hc
    · rfl
  have := keyLtb_trans h hba
  rw [keyLtb_irrefl] at this
  exact Bool.noConfusion this

lemma lastFold_some (l : List Entry) (m : Entry) :
    ∃ r, l.foldl lastFoldStep (some m) = some r := by
  induction l generalizing m with
  | nil => exact ⟨m, rfl⟩
  | cons e rest ih =>
    have hstep : (e :: rest).foldl lastFoldStep (some m) =
        rest.foldl lastFoldStep (lastFoldStep (some m) e) := rfl
    rw [hstep]
    cases hlt : Key.ltb m.1 e.1
    · have hkeep : lastFoldStep (some m) e = some m := by
        simp [lastFoldStep, hlt]
      rw [hkeep]
      exact ih m
    · have hnew : lastFoldStep (some m) e = some e := by
        simp [lastFoldStep, hlt]
      rw [hnew]
      exact ih e

lemma lastFold_spec (l : List Entry) (acc : Option Entry) (r : Entry)
    (h : l.foldl lastFoldStep acc = some r) :
    (acc = some r ∨ r ∈ l) ∧
    (∀ x ∈ l, Key.ltb r.1 x.1 = false) ∧
    (∀ m, acc = some m → Key.ltb r.1 m.1 = false) := by
  induction l generalizing acc with
  | nil =>
    refine ⟨Or.inl h, by simp, ?_⟩
    intro m hm
    rw [hm] at h
    cases h
    exact keyLtb_irrefl _
  | cons e rest ih =>
    have hstep : rest.foldl lastFoldStep (lastFoldStep acc e) = some r := h
    obtain ⟨hmem, hdom, hacc⟩ := ih (lastFoldStep acc e) hstep
    have hre : Key.ltb r.1 e.1 = false := by
      cases hac : acc with
      | none =>
        apply hacc
        rw [hac]
        rfl
      | some m =>
        by_cases hlt : Key.ltb m.1 e.1 = true
        · apply hacc
          rw [hac]
          show lastFoldStep (some m) e = some e
          simp [lastFoldStep, hlt]
        · have hacc' : lastFoldStep acc e = some m := by
            rw [hac]
            show lastFoldStep (some m) e = some m
            simp [lastFoldStep, hlt]
          have hrm : Key.ltb r.1 m.1 = false := hacc m hacc'
          rcases keyLtb_tri m.1 e.1 with h1 | h1 | h1
          · exact absurd h1 hlt
          · cases hre2 : Key.ltb r.1 e.1
            · rfl
            · have := keyLtb_trans hre2 h1
              rw [hrm] at this
              exact Bool.noConfusion this
          · rw [← h1]
            exact hrm
    refine ⟨?_, ?_, ?_⟩
    · rcases hmem with hm | hm
      · cases hac : acc with
        | none =>
          rw [hac] at hm
          have : some e = some r := hm
          cases this
          exact Or.inr (List.mem_cons_self _ _)
        | some m =>
          rw [hac] at hm
          by_cases hlt : Key.ltb m.1 e.1 = true
          · have : some e = some r := by
              rw [← hm]
              show some e = lastFoldStep (some m) e
              simp [lastFoldStep, hlt]
            cases this
            exact Or.inr (List.mem_cons_self _ _)
          · have : some m = some r := by
              rw [← hm]
              show some m = lastFoldStep (some m) e
              simp [lastFoldStep, hlt]
            cases this
            exact Or.inl rfl
      · exact Or.inr (List.mem_cons_of_mem _ hm)
    · intro x hx
      rcases List.mem_cons.mp hx with hx | hx
      · rw [hx]
        exact hre
      · exact hdom x hx
    · intro m hm
      by_cases hlt : Key.ltb m.1 e.1 = true
      · cases hrm : Key.ltb r.1 m.1
        · rfl
        · have := keyLtb_trans hrm hlt
          rw [hre] at this
          exact Bool.noConfusion this
      · apply hacc
        rw [hm]
        show lastFoldStep (some m) e = some m
        simp [lastFoldStep, hlt]

lemma lastEntryOf_spec (s : Store) (p : Key) (r : Entry)
    (h : s.lastEntryOf p = some r) :
    r ∈ s.entries ∧ keyExtends p r.1 = true ∧
      ∀ x ∈ s.entries, keyExtends p x.1 = true → Key.ltb r.1 x.1 = false := by
  obtain ⟨hmem, hdom, -⟩ := lastFold_spec _ none r h
  rcases hmem with hm | hm
  · exact Option.noConfusion hm
  · have hf := List.mem_filter.mp hm
    refine ⟨hf.1, hf.2, ?_⟩
    intro x hx hext
    exact hdom x (List.mem_filter.mpr ⟨hx, hext⟩)

lemma lastEntryOf_eq_none (s : Store) (p : Key)
    (h : ∀ e ∈ s.entries, keyExtends p e.1 = false) :
    s.lastEntryOf p = none := by
  unfold Store.lastEntryOf
  have : s.entries.filter (fun e => keyExtends p e.1) = [] := by
    apply List.filter_eq_nil_iff.mpr
    intro e he
    rw [h e he]
    exact Bool.false_ne_true
  rw [this]
  rfl

lemma lastEntryOf_ne_none (s : Store) (p : Key) (e : Entry)
    (he : e ∈ s.entries) (hx : keyExtends p e.1 = true) :
    s.lastEntryOf p ≠ none := by
  unfold Store.lastEntryOf
  have hmem : e ∈ s.entries.filter (fun e => keyExtends p e.1) :=
    List.mem_filter.mpr ⟨he, hx⟩
  cases hfil : s.entries.filter (fun e => keyExtends p e.1) with
  | nil => rw [hfil] at hmem; exact absurd hmem (List.not_mem_nil e)
  | cons x rest =>
    show rest.foldl lastFoldStep (lastFoldStep none x) ≠ none
    have : lastFoldStep none x = some x := rfl
    rw [this]
    obtain ⟨r, hr⟩ := lastFold_some rest x
    rw [hr]
    exact Option.noConfusion

lemma lastEntryOf_eq_of_dom (s : Store) (p : Key) (e : Entry)
    (he : e ∈ s.entries) (hx : keyExtends p e.1 = true)
    (hdom : ∀ x ∈ s.entries, keyExtends p x.1 = true →
      x = e ∨ Key.ltb x.1 e.1 = true) :
    s.lastEntryOf p = some e := by
  cases h : s.lastEntryOf p with
  | none => exact absurd h (lastEntryOf_ne_none s p e he hx)
  | some r =>
    obtain ⟨hmem, hext, hdom2⟩ := lastEntryOf_spec s p r h
    rcases hdom r hmem hext with hre | hre
    · rw [hre]
    · have := hdom2 e he hx
      rw [hre] at this
      exact Bool.noConfusion this

lemma find?_key_of_mem (l : List Entry)
    (hnd : (l.map (fun e => e.1)).Nodup) (e : Entry) (he : e ∈ l) :
    l.find? (fun y => decide (y.1 = e.1)) = some e := by
  induction l with
  | nil => exact absurd he (List.not_mem_nil e)
  | cons x rest ih =>
    have hnodup := List.nodup_cons.mp hnd
    rcases List.mem_cons.mp he with hx | hx
    · rw [hx]
      simp [List.find?]
    · have hxk : ¬(x.1 = e.1) := by
        intro hk
        apply hnodup.1
        show x.1 ∈ List.map (fun y => y.1) rest
        rw [hk]
        exact List.mem_map_of_mem (fun y => y.1) hx
      have step : List.find? (fun y => decide (y.1 = e.1)) (x :: rest) =
          List.find? (fun y => decide (y.1 = e.1)) rest := by
        simp [List.find?, hxk]
      rw [step]
      exact ih hnodup.2 hx

lemma get_eq_some_of_mem (s : Store) (e : Entry) (hnd : keysNodup s)
    (he : e ∈ s.entries) : s.get e.1 = some e.2 := by
  unfold Store.get
  rw [find?_key_of_mem s.entries hnd e he]

lemma get_eq_none_iff (s : Store) (k : Key) :
    s.get k = none ↔ ∀ e ∈ s.entries, e.1 ≠ k := by
  unfold Store.get
  constructor
  · intro h e he hk
    cases hfind : s.entries.find? (fun y => decide (y.1 = k)) with
    | some x => rw [hfind] at h; exact Option.noConfusion h
    | none =>
      have := List.find?_eq_none.mp hfind e he
      simp only [decide_eq_true_eq] at this
      exact this hk
  · intro h
    have : s.entries.find? (fun y => decide (y.1 = k)) = none := by
      apply List.find?_eq_none.mpr
      intro e he
      simp only [decide_eq_true_eq]
      exact h e he
    rw [this]

lemma find?_setEntryList_self (l : List Entry) (k : Key) (v : Value)
    (st : Nat) :
    (setEntryList l k v st).find? (fun y => decide (y.1 = k)) =
      some (k, v, st) := by
  induction l with
  | nil => simp [setEntryList, List.find?]
  | cons e rest ih =>
    by_cases he : e.1 = k
    · simp [setEntryList, he, List.find?]
    · simp only [setEntryList, if_neg he]
      have step : List.find? (fun y => decide (y.1 = k))
          (e :: setEntryList rest k v st) =
          List.find? (fun y => decide (y.1 = k)) (setEntryList rest k v st) := by
        simp [List.find?, he]
      rw [step]
      exact ih

lemma find?_setEntryList_ne (l : List Entry) (k : Key) (v : Value)
    (st : Nat) (k2 : Key) (hne : k2 ≠ k) :
    (setEntryList l k v st).find? (fun y => decide (y.1 = k2)) =
      l.find? (fun y => decide (y.1 = k2)) := by
  induction l with
  | nil =>
    have : ¬((k : Key) = k2) := fun h => hne h.symm
    simp [setEntryList, List.find?, this]
  | cons e rest ih =>
    by_cases he : e.1 = k
    · have hek2 : ¬(e.1 = k2) := fun h => hne (he ▸ h).symm
      have hkk2 : ¬((k : Key) = k2) := fun h => hne h.symm
      simp [setEntryList, he, List.find?, hek2, hkk2]
    · simp only [setEntryList, if_neg he]
      by_cases he2 : e.1 = k2
      · simp [List.find?, he2]
      · have s1 : List.find? (fun y => decide (y.1 = k2))
            (e :: setEntryList rest k v st) =
            List.find? (fun y => decide (y.1 = k2)) (setEntryList rest k v st) := by
          simp [List.find?, he2]
        have s2 : List.find? (fun y => decide (y.1 = k2)) (e :: rest) =
            List.find? (fun y => decide (y.1 = k2)) rest := by
          simp [List.find?, he2]
        rw [s1, s2]
        exact ih

lemma get_setEntry_self (s : Store) (k : Key) (v : Value) (st : Nat) :
    (s.setEntry k v st).get k = some (v, st) := by
  unfold Store.get Store.setEntry
  rw [find?_setEntryList_self]

lemma get_setEntry_ne (s : Store) (k : Key) (v : Value) (st : Nat)
    (k2 : Key) (hne : k2 ≠ k) : (s.setEntry k v st).get k2 = s.get k2 := by
  unfold Store.get Store.setEntry
  rw [find?_setEntryList_ne _ _ _ _ _ hne]

lemma mem_setEntryList (l : List Entry) (k : Key) (v : Value) (st : Nat)
    (e : Entry) (he : e ∈ setEntryList l k v st) :
    e ∈ l ∨ e = (k, v, st) := by
  induction l with
  | nil =>
    simp only [setEntryList] at he
    rcases List.mem_singleton.mp he with h
    exact Or.inr h
  | cons x rest ih =>
    by_cases hx : x.1 = k
    · rw [setEntryList, if_pos hx] at he
      rcases List.mem_cons.mp he with h | h
      · exact Or.inr h
      · exact Or.inl (List.mem_cons_of_mem _ h)
    · rw [setEntryList, if_neg hx] at he
      rcases List.mem_cons.mp he with h | h
      · exact Or.inl (h ▸ List.mem_cons_self _ _)
      · rcases ih h with h2 | h2
        · exact Or.inl (List.mem_cons_of_mem _ h2)
        · exact Or.inr h2

lemma setEntryList_keys (l : List Entry) (k : Key) (v : Value) (st : Nat) :
    (setEntryList l k v st).map (fun e => e.1) =
      if l.any (fun e => decide (e.1 = k)) then l.map (fun e => e.1)
      else l.map (fun e => e.1) ++ [k] := by
  induction l with
  | nil => simp [setEntryList]
  | cons x rest ih =>
    by_cases hx : x.1 = k
    · simp [setEntryList, hx]
    · simp only [setEntryList, if_neg hx, List.map_cons, List.any_cons]
      rw [ih]
      by_cases hany : rest.any (fun e => decide (e.1 = k))
      · simp [hany, hx]
      · simp [hany, hx]

lemma keysNodup_setEntry (s : Store) (k : Key) (v : Value) (st : Nat)
    (hnd : keysNodup s) : keysNodup (s.setEntry k v st) := by
  unfold keysNodup at hnd ⊢
  show (List.map (fun e => e.1) (setEntryList s.entries k v st)).Nodup
  rw [setEntryList_keys]
  by_cases hany : s.entries.any (fun e => decide (e.1 = k))
  · rw [if_pos hany]
    exact hnd
  · rw [if_neg hany]
    rw [List.nodup_append]
    refine ⟨hnd, List.nodup_singleton k, ?_⟩
    intro a ha hb
    rcases List.mem_singleton.mp hb with rfl
    obtain ⟨e, he, hek⟩ := List.mem_map.mp ha
    apply hany
    apply List.any_eq_true.mpr
    exact ⟨e, he, by simp [hek]⟩

lemma get_delEntry_self (s : Store) (k : Key) :
    (s.delEntry k).get k = none := by
  apply (get_eq_none_iff _ _).mpr
  intro e he
  have := List.mem_filter.mp he
  simpa using this.2

lemma find?_filter_ne (l : List Entry) (k k2 : Key) (hne : k2 ≠ k) :
    (l.filter (fun e => !decide (e.1 = k))).find?
        (fun y => decide (y.1 = k2)) =
      l.find? (fun y => decide (y.1 = k2)) := by
  induction l with
  | nil => rfl
  | cons e rest ih =>
    have hkk2 : ¬((k : Key) = k2) := fun h => hne h.symm
    by_cases he : e.1 = k
    · have hek2 : ¬(e.1 = k2) := fun h => hne (he ▸ h).symm
      simp [List.filter_cons, he, List.find?, hek2, hkk2, hne, ih]
    · by_cases he2 : e.1 = k2
      · simp [List.filter_cons, he, List.find?, he2, hkk2, hne]
      · simp [List.filter_cons, he, List.find?, he2, hkk2, hne, ih]

lemma get_delEntry_ne (s : Store) (k k2 : Key) (hne : k2 ≠ k) :
    (s.delEntry k).get k2 = s.get k2 := by
  unfold Store.get Store.delEntry
  rw [find?_filter_ne _ _ _ hne]

lemma mem_delEntry (s : Store) (k : Key) (e : Entry)
    (he : e ∈ (s.delEntry k).entries) : e ∈ s.entries :=
  (List.mem_filter.mp he).1

lemma delEntry_absent (s : Store) (k : Key) (h : s.get k = none) :
    (s.delEntry k).entries = s.entries := by
  unfold Store.delEntry
  apply List.filter_eq_self.mpr
  intro e he
  have := (get_eq_none_iff _ _).mp h e he
  simpa using this

lemma keysNodup_delEntry (s : Store) (k : Key) (hnd : keysNodup s) :
    keysNodup (s.delEntry k) := by
  unfold keysNodup at hnd ⊢
  show (List.map (fun e => e.1)
    (s.entries.filter (fun e => !decide (e.1 = k)))).Nodup
  exact (List.Sublist.map _ (List.filter_sublist _)).nodup hnd

lemma applyMuts_cons (s : Store) (st : Nat) (m : Mutation)
    (rest : List Mutation) :
    applyMuts s st (m :: rest) = applyMuts (s.applyMut st m) st rest := rfl

lemma get_applyMuts_untouched (muts : List Mutation) (s : Store) (st : Nat)
    (k : Key) (h : ∀ m ∈ muts, mutKey m ≠ k) :
    (applyMuts s st muts).get k = s.get k := by
  induction muts generalizing s with
  | nil => rfl
  | cons m rest ih =>
    rw [applyMuts_cons]
    rw [ih _ (fun m2 hm2 => h m2 (List.mem_cons_of_mem _ hm2))]
    have hk : mutKey m ≠ k := h m (List.mem_cons_self _ _)
    cases m with
    | set k0 v =>
      exact get_setEntry_ne s k0 v st k (fun hh => hk hh.symm)
    | del k0 =>
      exact get_delEntry_ne s k0 k (fun hh => hk hh.symm)

lemma mem_applyMuts (muts : List Mutation) (s : Store) (st : Nat)
    (e : Entry) (he : e ∈ (applyMuts s st muts).entries) :
    e ∈ s.entries ∨ ∃ k v, Mutation.set k v ∈ muts ∧ e = (k, v, st) := by
  induction muts generalizing s with
  | nil => exact Or.inl he
  | cons m rest ih =>
    rw [applyMuts_cons] at he
    rcases ih _ he with h1 | ⟨k, v, hm, hev⟩
    · cases m with
      | set k0 v0 =>
        rcases mem_setEntryList _ _ _ _ _ h1 with h2 | h2
        · exact Or.inl h2
        · exact Or.inr ⟨k0, v0, List.mem_cons_self _ _, h2⟩
      | del k0 =>
        exact Or.inl (mem_delEntry _ _ _ h1)
    · exact Or.inr ⟨k, v, List.mem_cons_of_mem _ hm, hev⟩

lemma keysNodup_applyMuts (muts : List Mutation) (s : Store) (st : Nat)
    (hnd : keysNodup s) : keysNodup (applyMuts s st muts) := by
  induction muts generalizing s with
  | nil => exact hnd
  | cons m rest ih =>
    rw [applyMuts_cons]
    apply ih
    cases m with
    | set k0 v0 => exact keysNodup_setEntry _ _ _ _ hnd
    | del k0 => exact keysNodup_delEntry _ _ hnd

lemma key_mem_setEntryList_mono (l : List Entry) (k k2 : Key) (v : Value)
    (st : Nat) (h : ∃ e ∈ l, e.1 = k) :
    ∃ e ∈ setEntryList l k2 v st, e.1 = k := by
  obtain ⟨e, he, hek⟩ := h
  induction l with
  | nil => exact absurd he (List.not_mem_nil e)
  | cons x rest ih =>
    by_cases hx : x.1 = k2
    · rw [setEntryList, if_pos hx]
      rcases List.mem_cons.mp he with h1 | h1
      · refine ⟨(k2, v, st), List.mem_cons_self _ _, ?_⟩
        rw [← hx, ← h1, hek]
      · exact ⟨e, List.mem_cons_of_mem _ h1, hek⟩
    · rw [setEntryList, if_neg hx]
      rcases List.mem_cons.mp he with h1 | h1
      · exact ⟨e, h1 ▸ List.mem_cons_self _ _, hek⟩
      · obtain ⟨e2, he2, hek2⟩ := ih h1
        exact ⟨e2, List.mem_cons_of_mem _ he2, hek2⟩

lemma key_mem_setEntryList_self (l : List Entry) (k : Key) (v : Value)
    (st : Nat) : ∃ e ∈ setEntryList l k v st, e.1 = k :=
  ⟨(k, v, st), List.mem_of_find?_eq_some (find?_setEntryList_self l k v st),
    rfl⟩

lemma key_present_applyMuts_mono (muts : List Mutation) (s : Store)
    (st : Nat) (k : Key)
    (hall : ∀ m ∈ muts, ∃ k2 v2, m = Mutation.set k2 v2)
    (h : ∃ e ∈ s.entries, e.1 = k) :
    ∃ e ∈ (applyMuts s st muts).entries, e.1 = k := by
  induction muts generalizing s with
  | nil => exact h
  | cons m rest ih =>
    obtain ⟨k2, v2, hm⟩ := hall m (List.mem_cons_self _ _)
    rw [applyMuts_cons, hm]
    exact ih _ (fun m2 hm2 => hall m2 (List.mem_cons_of_mem _ hm2))
      (key_mem_setEntryList_mono _ _ _ _ _ h)

lemma key_present_applyMuts (muts : List Mutation) (s : Store) (st : Nat)
    (k : Key) (v : Value)
    (hall : ∀ m ∈ muts, ∃ k2 v2, m = Mutation.set k2 v2)
    (hin : Mutation.set k v ∈ muts) :
    ∃ e ∈ (applyMuts s st muts).entries, e.1 = k := by
  induction muts generalizing s with
  | nil => exact absurd hin (List.not_mem_nil _)
  | cons m rest ih =>
    rw [applyMuts_cons]
    rcases List.mem_cons.mp hin with h1 | h1
    · rw [← h1]
      exact key_present_applyMuts_mono rest _ st k
        (fun m2 hm2 => hall m2 (List.mem_cons_of_mem _ hm2))
        (key_mem_setEntryList_self _ _ _ _)
    · exact ih _ (fun m2 hm2 => hall m2 (List.mem_cons_of_mem _ hm2)) h1

lemma objSet_fresh {α : Type} (l : List (String × α)) (k : String) (v : α)
    (h : ∀ e ∈ l, e.1 ≠ k) : objSet l k v = l ++ [(k, v)] := by
  unfold objSet
  have : l.any (fun e => decide (e.1 = k)) = false := by
    apply List.any_eq_false.mpr
    intro e he
    simpa using h e he
  rw [this]
  simp

lemma get_applyMuts_row (row : RowObj) (kf : String → Key)
    (hinj : ∀ a b, kf a = kf b → a = b)
    (hnd : (row.map (fun f => f.1)).Nodup) (s : Store) (st : Nat) :
    ∀ f ∈ row,
      (applyMuts s st (row.map (fun f => Mutation.set (kf f.1) f.2))).get
        (kf f.1) = some (f.2, st) := by
  induction row generalizing s with
  | nil => intro f hf; exact absurd hf (List.not_mem_nil f)
  | cons f0 rest ih =>
    intro f hf
    have hnodup := List.nodup_cons.mp hnd
    rw [List.map_cons, applyMuts_cons]
    rcases List.mem_cons.mp hf with h1 | h1
    · rw [h1]
      rw [get_applyMuts_untouched]
      · exact get_setEntry_self _ _ _ _
      · intro m hm
        obtain ⟨f2, hf2, hm2⟩ := List.mem_map.mp hm
        rw [← hm2]
        intro hkey
        apply hnodup.1
        have hff : f2.1 = f0.1 := hinj _ _ hkey
        show f0.1 ∈ List.map (fun f => f.1) rest
        rw [← hff]
        exact List.mem_map_of_mem (fun f => f.1) hf2
    · exact ih hnodup.2 _ f h1

lemma buildRowVs_go (results : List (String × Option (Value × Nat)))
    (acc1 : RowObj) (acc2 : List (String × Option Nat))
    (hfresh : ∀ r ∈ results,
      (∀ e ∈ acc1, e.1 ≠ r.1) ∧ (∀ e ∈ acc2, e.1 ≠ r.1))
    (hnd : (results.map (fun r => r.1)).Nodup) :
    results.foldl
      (fun acc r =>
        match r.2 with
        | some (v, st) => (objSet acc.1 r.1 v, objSet acc.2 r.1 (some st))
        | none => (acc.1, objSet acc.2 r.1 none))
      (acc1, acc2) =
    (acc1 ++ results.filterMap (fun r => r.2.map (fun x => (r.1, x.1))),
     acc2 ++ results.map (fun r => (r.1, r.2.map (fun x => x.2)))) := by
  induction results generalizing acc1 acc2 with
  | nil => simp
  | cons r rest ih =>
    have hnodup := List.nodup_cons.mp hnd
    have hr := hfresh r (List.mem_cons_self _ _)
    obtain ⟨rn, rv⟩ := r
    have hfresh2 : ∀ r2 ∈ rest, rn ≠ r2.1 := by
      intro r2 hr2 hk
      apply hnodup.1
      rw [hk]
      exact List.mem_map_of_mem (fun r => r.1) hr2
    cases rv with
    | none =>
      have step : (List.foldl
          (fun acc r =>
            match r.2 with
            | some (v, st) => (objSet acc.1 r.1 v, objSet acc.2 r.1 (some st))
            | none => (acc.1, objSet acc.2 r.1 none))
          (acc1, acc2) ((rn, none) :: rest)) =
          (List.foldl
            (fun acc r =>
              match r.2 with
              | some (v, st) =>
                (objSet acc.1 r.1 v, objSet acc.2 r.1 (some st))
              | none => (acc.1, objSet acc.2 r.1 none))
            (acc1, objSet acc2 rn none) rest) := rfl
      rw [step, objSet_fresh acc2 rn none hr.2]
      rw [ih acc1 (acc2 ++ [(rn, none)]) ?fresh ?nodup]
      case fresh =>
        intro r2 hr2
        refine ⟨(hfresh r2 (List.mem_cons_of_mem _ hr2)).1, ?_⟩
        intro e he
        rcases List.mem_append.mp he with h1 | h1
        · exact (hfresh r2 (List.mem_cons_of_mem _ hr2)).2 e h1
        · rcases List.mem_singleton.mp h1 with rfl
          exact hfresh2 r2 hr2
      case nodup => exact hnodup.2
      simp
    | some p =>
      obtain ⟨v, st⟩ := p
      have step : (List.foldl
          (fun acc r =>
            match r.2 with
            | some (v, st) => (objSet acc.1 r.1 v, objSet acc.2 r.1 (some st))
            | none => (acc.1, objSet acc.2 r.1 none))
          (acc1, acc2) ((rn, some (v, st)) :: rest)) =
          (List.foldl
            (fun acc r =>
              match r.2 with
              | some (v, st) =>
                (objSet acc.1 r.1 v, objSet acc.2 r.1 (some st))
              | none => (acc.1, objSet acc.2 r.1 none))
            (objSet acc1 rn v, objSet acc2 rn (some st)) rest) := rfl
      rw [step, objSet_fresh acc1 rn v hr.1, objSet_fresh acc2 rn (some st) hr.2]
      rw [ih (acc1 ++ [(rn, v)]) (acc2 ++ [(rn, some st)]) ?fresh2 ?nodup2]
      case fresh2 =>
        intro r2 hr2
        constructor
        · intro e he
          rcases List.mem_append.mp he with h1 | h1
          · exact (hfresh r2 (List.mem_cons_of_mem _ hr2)).1 e h1
          · rcases List.mem_singleton.mp h1 with rfl
            exact hfresh2 r2 hr2
        · intro e he
          rcases List.mem_append.mp he with h1 | h1
          · exact (hfresh r2 (List.mem_cons_of_mem _ hr2)).2 e h1
          · rcases List.mem_singleton.mp h1 with rfl
            exact hfresh2 r2 hr2
      case nodup2 => exact hnodup.2
      simp

lemma buildRowVs_spec (results : List (String × Option (Value × Nat)))
    (hnd : (results.map (fun r => r.1)).Nodup) :
    buildRowVs results =
      (results.filterMap (fun r => r.2.map (fun x => (r.1, x.1))),
       results.map (fun r => (r.1, r.2.map (fun x => x.2)))) := by
  unfold buildRowVs
  rw [buildRowVs_go results [] [] ?fresh hnd]
  · simp
  case fresh =>
    intro r hr
    exact ⟨fun e he => absurd he (List.not_mem_nil e),
      fun e he => absurd he (List.not_mem_nil e)⟩

lemma insert_reaches_commit (o : Options) (name : String)
    (cols : List (String × ColType)) (row : RowObj) (s : Store)
    (id : KeyPart) (lastRow : AtomicCheck)
    (hc : lookupTable o name = some cols)
    (hval : validateInsert cols row = true)
    (hgen : generateRowId name s = .ok (id, lastRow)) :
    insert o name row s =
      (let r := s.commit (insertAtomicOp name id lastRow row)
       ((if r.1 then Except.ok (InsertOutcome.committed id s.nextStamp)
         else Except.ok InsertOutcome.conflict), r.2)) := by
  unfold insert
  rw [hc]
  simp only [hval, if_true, hgen]
  split <;> rfl

/-- C1: for every table, the row id generator returns id `1` with an
absence precondition at key `(table, 1)` when no entry exists under the
table prefix; when the greatest entry exists and carries an integer id
component `lastId`, it returns `lastId + 1` with a precondition pinning
that entry's observed versionstamp; and `insert` folds exactly this
precondition into its atomic commit, whose mutations are one set per
column of the row. -/
theorem rowid_generation_and_insert_fold :
    (∀ (name : String) (s : Store),
      (∀ e ∈ s.entries, keyExtends [KeyPart.str name] e.1 = false) →
      generateRowId name s =
        .ok (.int 1, ([KeyPart.str name, KeyPart.int 1], none))) ∧
    (∀ (name : String) (s : Store) (e : Entry) (lastId : Int),
      e ∈ s.entries → keyExtends [KeyPart.str name] e.1 = true →
      (∀ x ∈ s.entries, keyExtends [KeyPart.str name] x.1 = true →
        x = e ∨ Key.ltb x.1 e.1 = true) →
      e.1[1]? = some (KeyPart.int lastId) →
      generateRowId name s = .ok (.int (lastId + 1), (e.1, some e.2.2))) ∧
    (∀ (o : Options) (name : String) (cols : List (String × ColType))
      (row : RowObj) (s : Store) (id : KeyPart) (lastRow : AtomicCheck),
      lookupTable o name = some cols → validateInsert cols row = true →
      generateRowId name s = .ok (id, lastRow) →
      insert o name row s =
        (let r := s.commit
          ⟨[lastRow],
           row.map (fun f =>
             Mutation.set [KeyPart.str name, id, KeyPart.str f.1] f.2)⟩
         ((if r.1 then Except.ok (InsertOutcome.committed id s.nextStamp)
           else Except.ok InsertOutcome.conflict), r.2))) := by
  refine ⟨?one, ?two, ?three⟩
  case one =>
    intro name s h
    unfold generateRowId
    rw [lastEntryOf_eq_none s _ h]
  case two =>
    intro name s e lastId he hx hdom hid
    unfold generateRowId
    rw [lastEntryOf_eq_of_dom s _ e he hx hdom]
    obtain ⟨k, v, st⟩ := e
    show (match k[1]? with
      | none =>
        (Except.error (Err.jsTypeError "cannot mix BigInt and other types") :
          Except Err (KeyPart × AtomicCheck))
      | some p => Except.ok (jsBigAddOne p, (k, some st))) =
      Except.ok (KeyPart.int (lastId + 1), (k, some st))
    rw [hid]
    rfl
  case three =>
    intro o name cols row s id lastRow hc hval hgen
    exact insert_reaches_commit o name cols row s id lastRow hc hval hgen

/-- Witness for C1 at concrete inputs: the empty store, a one-row store
whose last entry has id `1`, and a concrete insert. -/
theorem rowid_generation_and_insert_fold_witness :
    generateRowId "t" emptyStore =
      .ok (.int 1, ([KeyPart.str "t", KeyPart.int 1], none)) ∧
    generateRowId "t" storeOneRow =
      .ok (.int (1 + 1),
        ([KeyPart.str "t", KeyPart.int 1, KeyPart.str "a"], some 0)) ∧
    insert oneTable "t" rowFirst emptyStore =
      (let r := emptyStore.commit
        ⟨[([KeyPart.str "t", KeyPart.int 1], none)],
         rowFirst.map (fun f =>
           Mutation.set [KeyPart.str "t", KeyPart.int 1, KeyPart.str f.1]
             f.2)⟩
       ((if r.1 then
           Except.ok (InsertOutcome.committed (.int 1) emptyStore.nextStamp)
         else Except.ok InsertOutcome.conflict), r.2)) :=
  ⟨rowid_generation_and_insert_fold.1 "t" emptyStore (by decide),
   rowid_generation_and_insert_fold.2.1 "t" storeOneRow
     ([KeyPart.str "t", KeyPart.int 1, KeyPart.str "a"], Value.vstr "x", 0) 1
     (by decide) (by decide) (by decide) (by decide),
   rowid_generation_and_insert_fold.2.2 oneTable "t" [("a", .cStr)] rowFirst
     emptyStore (.int 1) ([KeyPart.str "t", KeyPart.int 1], none)
     (by decide) (by decide) (by decide)⟩

/-- C2 (code bug): two simultaneous inserts on the same table that both
compute their id against the same store state both pass their atomic
precondition: the id-generation check concerns key `[t, 1n]`, which
neither insert writes (they write three-part column keys), so both
commits report success with the same id `1` and the second silently
overwrites the first's column entry — contradicting "exactly one commits
and the other receives Conflict". -/
theorem insert_race_both_commit :
    generateRowId "t" emptyStore = .ok (.int 1, raceCheck) ∧
    (emptyStore.commit (insertAtomicOp "t" (.int 1) raceCheck rowFirst)).1 =
      true ∧
    (raceStoreOne.commit
      (insertAtomicOp "t" (.int 1) raceCheck rowSecond)).1 = true ∧
    raceStoreTwo.get [KeyPart.str "t", KeyPart.int 1, KeyPart.str "a"] =
      some (.vstr "second", 1) := by
  decide

/-- C4 counterexample: ids ARE reused after a delete.  Sequentially:
insert gets id `1`, insert gets id `2`, the row with id `2` is deleted,
and the next insert gets id `2` again — refuting "no id is ever
allocated twice" in the presence of deletes. -/
theorem insert_id_reused_after_delete :
    (insert oneTable "t" rowFirst emptyStore).1 =
      .ok (.committed (.int 1) 0) ∧
    (insert oneTable "t" rowSecond storeAfterFirst).1 =
      .ok (.committed (.int 2) 1) ∧
    (delete oneTable "t" ⟨2, none⟩ storeAfterSecond).1 =
      .ok (.committed 2) ∧
    (insert oneTable "t" rowThird storeAfterDelete).1 =
      .ok (.committed (.int 2) 3) := by
  decide

/-- C9 counterexample: with a string id component at the last observed
key, `Database.#generateRowId` does not fail with a corrupt-data error:
the `as bigint` cast is erased at runtime and `lastId + 1n` string-
concatenates, so the operation proceeds with the string `"x1"` as id. -/
theorem generateRowId_proceeds_on_corrupt :
    generateRowId "t" storeCorrupt =
      .ok (.str "x1", ([KeyPart.str "t", KeyPart.str "x"], some 0)) := by
  decide

/-- C9 (amended): the runtime type check exists only in
`Table.#generateRowId` of `table.ts`, which fails with the corrupt-data
error on a non-bigint id component; `Database.#generateRowId` performs
no check and proceeds, returning the JavaScript string concatenation
`lastId + "1"` as the id. -/
theorem corrupt_id_check_only_in_table_variant :
    ∀ (name : String) (s : Store) (k : Key) (v : Value) (st : Nat)
      (c : String),
      s.lastEntryOf [KeyPart.str name] = some (k, v, st) →
      k[1]? = some (KeyPart.str c) →
      tableGenerateRowId name s =
        .error (.corruptData "expected last id of type bigint") ∧
      generateRowId name s = .ok (.str (c ++ "1"), (k, some st)) := by
  intro name s k v st c hlast hid
  constructor
  · unfold tableGenerateRowId
    rw [hlast]
    show (match k[1]? with
      | some (KeyPart.int n) => Except.ok (KeyPart.int (n + 1))
      | some (KeyPart.str _) =>
        (Except.error (Err.corruptData "expected last id of type bigint") :
          Except Err KeyPart)
      | none =>
        Except.error (Err.corruptData "expected last id of type bigint")) =
      Except.error (Err.corruptData "expected last id of type bigint")
    rw [hid]
  · unfold generateRowId
    rw [hlast]
    show (match k[1]? with
      | none =>
        (Except.error (Err.jsTypeError "cannot mix BigInt and other types") :
          Except Err (KeyPart × AtomicCheck))
      | some p => Except.ok (jsBigAddOne p, (k, some st))) =
      Except.ok (KeyPart.str (c ++ "1"), (k, some st))
    rw [hid]
    rfl

/-- Witness for C9's amended theorem at the concrete tampered store. -/
theorem corrupt_id_check_only_in_table_variant_witness :
    tableGenerateRowId "t" storeCorrupt =
      .error (.corruptData "expected last id of type bigint") ∧
    generateRowId "t" storeCorrupt =
      .ok (.str ("x" ++ "1"),
        ([KeyPart.str "t", KeyPart.str "x"], some 0)) :=
  corrupt_id_check_only_in_table_variant "t" storeCorrupt
    [KeyPart.str "t", KeyPart.str "x"] (.vstr "v") 0 "x"
    (by decide) (by decide)

/-- C8 counterexample: an update candidate with an undeclared field `b`
passes validation (Zod strip mode does not reject unknown keys, and the
parse result is discarded), the call commits, and the undeclared column
is physically written. -/
theorem update_extra_field_committed :
    validateUpdateRow [("a", ColType.cStr)] rowWithExtra = none ∧
    (update oneTable "t" ⟨1, none⟩ rowWithExtra storeOneRow).1 =
      .ok (.committed 1) ∧
    (update oneTable "t" ⟨1, none⟩ rowWithExtra storeOneRow).2.get
      [KeyPart.str "t", KeyPart.int 1, KeyPart.str "b"] =
      some (.vstr "z", 1) := by
  decide

lemma update_reaches_commit (o : Options) (name : String)
    (cols : List (String × ColType)) (cond : WriteCondition) (row : RowObj)
    (s : Store)
    (hc : lookupTable o name = some cols)
    (hwc : validateWriteCondition cols cond = true)
    (hvr : validateUpdateRow cols row = none)
    (hpres : ((colEntries name cond.id cols s).filter
      (fun e => e.2.isSome)).isEmpty = false) :
    update o name cond row s =
      (let r := s.commit
        (updateAtomicOp name cond (colEntries name cond.id cols s) row)
       ((if r.1 then Except.ok (CommitOutcome.committed s.nextStamp)
         else Except.ok CommitOutcome.conflict), r.2)) := by
  unfold update
  rw [hc]
  simp only [hwc, if_true, hvr, hpres]
  rw [if_neg (fun h => Bool.noConfusion h)]
  split <;> rfl

lemma delete_reaches_commit (o : Options) (name : String)
    (cols : List (String × ColType)) (cond : WriteCondition) (s : Store)
    (hc : lookupTable o name = some cols)
    (hwc : validateWriteCondition cols cond = true) :
    delete o name cond s =
      (let r := s.commit (deleteAtomicOp name cond cols)
       ((if r.1 then Except.ok (CommitOutcome.committed s.nextStamp)
         else Except.ok CommitOutcome.conflict), r.2)) := by
  unfold delete
  rw [hc]
  simp only [hwc, if_true]
  split <;> rfl

/-- C10: in both `update` and `delete`, a caller-supplied versionstamp
entry that is explicitly `null` contributes one atomic check asserting
the column entry's absence, an explicit versionstamp contributes one
equality check, an entry that is `undefined` contributes no check at
all (only entries strictly different from `undefined` produce checks),
and a check with expected versionstamp `null` holds exactly when the
key is absent. -/
theorem versionstamp_condition_checks :
    (∀ (name : String) (id : Int) (l : List (String × VsEntry))
       (cn : String),
      (cn, VsEntry.vsNull) ∈ l →
      (colKey name id cn, (none : Option Nat)) ∈
        condChecks name id (some l)) ∧
    (∀ (name : String) (id : Int) (l : List (String × VsEntry))
       (cn : String) (st : Nat),
      (cn, VsEntry.vsStamp st) ∈ l →
      (colKey name id cn, some st) ∈ condChecks name id (some l)) ∧
    (∀ (name : String) (id : Int) (l : List (String × VsEntry)),
      (condChecks name id (some l)).length =
        (l.filter (fun e => decide (e.2 ≠ VsEntry.vsUndef))).length) ∧
    (∀ (s : Store) (k : Key),
      s.checkOk (k, none) = true ↔ s.get k = none) ∧
    (∀ (name : String) (cond : WriteCondition)
       (entries : List (Key × Option (Value × Nat))) (row : RowObj),
      (updateAtomicOp name cond entries row).checks =
        condChecks name cond.id cond.versionstamps ++
          entries.map (fun e => (e.1, e.2.map (fun x => x.2)))) ∧
    (∀ (name : String) (cond : WriteCondition)
       (cols : List (String × ColType)),
      (deleteAtomicOp name cond cols).checks =
        condChecks name cond.id cond.versionstamps) := by
  refine ⟨?nul, ?stamp, ?len, ?sem, fun _ _ _ _ => rfl, fun _ _ _ => rfl⟩
  case nul =>
    intro name id l cn hmem
    apply List.mem_filterMap.mpr
    exact ⟨(cn, VsEntry.vsNull), hmem, rfl⟩
  case stamp =>
    intro name id l cn st hmem
    apply List.mem_filterMap.mpr
    exact ⟨(cn, VsEntry.vsStamp st), hmem, rfl⟩
  case len =>
    intro name id l
    induction l with
    | nil => rfl
    | cons e rest ih =>
      obtain ⟨cn, ve⟩ := e
      cases ve with
      | vsUndef => simpa [condChecks, List.filter_cons] using ih
      | vsNull => simpa [condChecks, List.filter_cons] using ih
      | vsStamp st => simpa [condChecks, List.filter_cons] using ih
  case sem =>
    intro s k
    unfold Store.checkOk Store.stampOf
    constructor
    · intro h
      have := of_decide_eq_true h
      exact Option.map_eq_none.mp this
    · intro h
      apply decide_eq_true
      rw [h]
      rfl

/-- Witness for C10 at concrete inputs. -/
theorem versionstamp_condition_checks_witness :
    (colKey "t" 1 "a", (none : Option Nat)) ∈
      condChecks "t" 1 (some [("a", VsEntry.vsNull)]) ∧
    (colKey "t" 1 "a", some 7) ∈
      condChecks "t" 1 (some [("a", VsEntry.vsStamp 7)]) ∧
    (condChecks "t" 1
      (some [("a", VsEntry.vsUndef), ("b", VsEntry.vsNull)])).length =
      ([("a", VsEntry.vsUndef), ("b", VsEntry.vsNull)].filter
        (fun e => decide (e.2 ≠ VsEntry.vsUndef))).length ∧
    (emptyStore.checkOk ([KeyPart.str "q"], none) = true ↔
      emptyStore.get [KeyPart.str "q"] = none) :=
  ⟨versionstamp_condition_checks.1 "t" 1 [("a", VsEntry.vsNull)] "a"
     (by decide),
   versionstamp_condition_checks.2.1 "t" 1 [("a", VsEntry.vsStamp 7)] "a" 7
     (by decide),
   versionstamp_condition_checks.2.2.1 "t" 1
     [("a", VsEntry.vsUndef), ("b", VsEntry.vsNull)],
   versionstamp_condition_checks.2.2.2.1 emptyStore [KeyPart.str "q"]⟩

lemma colKey_inj (name : String) (id : Int) {a b : String}
    (h : colKey name id a = colKey name id b) : a = b := by
  simpa [colKey] using h

lemma commit_cases (s : Store) (op : AtomicOp) :
    ((s.commit op).1 = true ∧
      (s.commit op).2 =
        { applyMuts s s.nextStamp op.mutations with
            nextStamp := s.nextStamp + 1 }) ∨
    ((s.commit op).1 = false ∧ (s.commit op).2 = s) := by
  by_cases hch : (op.checks.all (fun c => s.checkOk c)) = true
  · left
    unfold Store.commit
    rw [if_pos hch]
    exact ⟨rfl, rfl⟩
  · right
    unfold Store.commit
    rw [if_neg hch]
    exact ⟨rfl, rfl⟩

/-- C3: the atomic unit committed by a validated `update` that found the
row present contains one versionstamp check per declared column using
the stamp observed in the pre-read, plus one check per column with a
caller-supplied expected versionstamp, and set operations exactly for
the keys of the partial row; on success every column not named in the
partial row keeps its stored value and versionstamp. -/
theorem update_atomic_unit_contents :
    ∀ (o : Options) (name : String) (cols : List (String × ColType))
      (cond : WriteCondition) (row : RowObj) (s : Store),
      lookupTable o name = some cols →
      validateWriteCondition cols cond = true →
      validateUpdateRow cols row = none →
      ((colEntries name cond.id cols s).filter
        (fun e => e.2.isSome)).isEmpty = false →
      (∀ c ∈ cols,
        (colKey name cond.id c.1, s.stampOf (colKey name cond.id c.1)) ∈
          (updateAtomicOp name cond (colEntries name cond.id cols s)
            row).checks) ∧
      (∀ (l : List (String × VsEntry)), cond.versionstamps = some l →
        ∀ (cn : String) (st : Nat), (cn, VsEntry.vsStamp st) ∈ l →
          (colKey name cond.id cn, some st) ∈
            (updateAtomicOp name cond (colEntries name cond.id cols s)
              row).checks) ∧
      ((updateAtomicOp name cond (colEntries name cond.id cols s)
          row).mutations =
        row.map (fun f => Mutation.set (colKey name cond.id f.1) f.2)) ∧
      (update o name cond row s =
        (let r := s.commit
          (updateAtomicOp name cond (colEntries name cond.id cols s) row)
         ((if r.1 then Except.ok (CommitOutcome.committed s.nextStamp)
           else Except.ok CommitOutcome.conflict), r.2))) ∧
      (∀ cn : String, (∀ f ∈ row, f.1 ≠ cn) →
        (update o name cond row s).2.get (colKey name cond.id cn) =
          s.get (colKey name cond.id cn)) := by
  intro o name cols cond row s hc hwc hvr hpres
  refine ⟨?cols, ?supplied, rfl, ?eq, ?untouched⟩
  case cols =>
    intro c hc2
    apply List.mem_append_right
    have h1 : (colKey name cond.id c.1, s.get (colKey name cond.id c.1)) ∈
        colEntries name cond.id cols s :=
      List.mem_map_of_mem
        (fun c => (colKey name cond.id c.1, s.get (colKey name cond.id c.1)))
        hc2
    have h2 := List.mem_map_of_mem
      (fun e : Key × Option (Value × Nat) => (e.1, e.2.map (fun x => x.2)))
      h1
    exact h2
  case supplied =>
    intro l hl cn st hmem
    apply List.mem_append_left
    rw [hl]
    apply List.mem_filterMap.mpr
    exact ⟨(cn, VsEntry.vsStamp st), hmem, rfl⟩
  case eq =>
    exact update_reaches_commit o name cols cond row s hc hwc hvr hpres
  case untouched =>
    intro cn hcn
    rw [update_reaches_commit o name cols cond row s hc hwc hvr hpres]
    show (s.commit
      (updateAtomicOp name cond (colEntries name cond.id cols s) row)).2.get
        (colKey name cond.id cn) = s.get (colKey name cond.id cn)
    rcases commit_cases s
      (updateAtomicOp name cond (colEntries name cond.id cols s) row) with
      ⟨-, h2⟩ | ⟨-, h2⟩
    · rw [h2]
      show (applyMuts s s.nextStamp
        (row.map (fun f =>
          Mutation.set (colKey name cond.id f.1) f.2))).get
            (colKey name cond.id cn) = s.get (colKey name cond.id cn)
      apply get_applyMuts_untouched
      intro m hm
      obtain ⟨f, hf, hmf⟩ := List.mem_map.mp hm
      rw [← hmf]
      intro hkey
      exact hcn f hf (colKey_inj name cond.id hkey)
    · rw [h2]

/-- Witness for C3 at a concrete update call. -/
theorem update_atomic_unit_contents_witness :
    (∀ c ∈ [("a", ColType.cStr)],
      (colKey "t" 1 c.1, storeOneRow.stampOf (colKey "t" 1 c.1)) ∈
        (updateAtomicOp "t" ⟨1, some [("a", VsEntry.vsStamp 0)]⟩
          (colEntries "t" 1 [("a", ColType.cStr)] storeOneRow)
          [("a", Value.vstr "y")]).checks) ∧
    (updateAtomicOp "t" ⟨1, some [("a", VsEntry.vsStamp 0)]⟩
        (colEntries "t" 1 [("a", ColType.cStr)] storeOneRow)
        [("a", Value.vstr "y")]).mutations =
      [("a", Value.vstr "y")].map
        (fun f => Mutation.set (colKey "t" 1 f.1) f.2) :=
  have h := update_atomic_unit_contents oneTable "t" [("a", ColType.cStr)]
    ⟨1, some [("a", VsEntry.vsStamp 0)]⟩ [("a", Value.vstr "y")] storeOneRow
    (by decide) (by decide) (by decide) (by decide)
  ⟨h.1, h.2.2.1⟩

lemma applyMuts_del_absent (muts : List Mutation) (s : Store) (st : Nat)
    (h : ∀ m ∈ muts, ∃ k, m = Mutation.del k ∧ s.get k = none) :
    applyMuts s st muts = s := by
  induction muts with
  | nil => rfl
  | cons m rest ih =>
    obtain ⟨k, hm, hget⟩ := h m (List.mem_cons_self _ _)
    rw [applyMuts_cons, hm]
    have hdel : s.applyMut st (Mutation.del k) = s := by
      show s.delEntry k = s
      have hent := delEntry_absent s k hget
      obtain ⟨E, n⟩ := s
      show Store.mk (E.filter (fun e => !decide (e.1 = k))) n = Store.mk E n
      have hE : E.filter (fun e => !decide (e.1 = k)) = E := hent
      rw [hE]
    rw [hdel]
    exact ih (fun m2 hm2 => h m2 (List.mem_cons_of_mem _ hm2))

lemma colEntries_all_absent (name : String) (id : Int)
    (cols : List (String × ColType)) (s : Store)
    (h : ∀ c ∈ cols, s.get (colKey name id c.1) = none) :
    ((colEntries name id cols s).filter (fun e => e.2.isSome)).isEmpty =
      true := by
  have hfil : (colEntries name id cols s).filter (fun e => e.2.isSome) =
      [] := by
    apply List.filter_eq_nil_iff.mpr
    intro e he
    obtain ⟨c, hcm, hce⟩ := List.mem_map.mp he
    rw [← hce]
    simp [h c hcm]
  rw [hfil]
  rfl

/-- C5: a validated `update` on a row with zero present columns throws
the row-not-found error and leaves the store untouched, whereas `delete`
on such a row is not an error: its transaction carries no existence
check (no checks at all without caller-supplied versionstamps) and it
commits successfully with no visible effect on the stored entries. -/
theorem update_notfound_delete_noop :
    (∀ (o : Options) (name : String) (cols : List (String × ColType))
       (cond : WriteCondition) (row : RowObj) (s : Store),
      lookupTable o name = some cols →
      validateWriteCondition cols cond = true →
      validateUpdateRow cols row = none →
      (∀ c ∈ cols, s.get (colKey name cond.id c.1) = none) →
      update o name cond row s =
        (.error (.rowNotFound cond.id name), s)) ∧
    (∀ (o : Options) (name : String) (cols : List (String × ColType))
       (cond : WriteCondition) (s : Store),
      lookupTable o name = some cols →
      cond.versionstamps = none →
      0 < cond.id →
      (∀ c ∈ cols, s.get (colKey name cond.id c.1) = none) →
      (deleteAtomicOp name cond cols).checks = [] ∧
      delete o name cond s =
        (.ok (.committed s.nextStamp),
          { s with nextStamp := s.nextStamp + 1 })) := by
  constructor
  · intro o name cols cond row s hc hwc hvr h
    unfold update
    rw [hc]
    simp only [hwc, if_true, hvr]
    rw [if_pos (colEntries_all_absent name cond.id cols s h)]
  · intro o name cols cond s hc hvs hid h
    have hwc : validateWriteCondition cols cond = true := by
      unfold validateWriteCondition
      rw [hvs]
      simp [hid]
    have hchk : (deleteAtomicOp name cond cols).checks = [] := by
      show condChecks name cond.id cond.versionstamps = []
      rw [hvs]
      rfl
    have hmuts : applyMuts s s.nextStamp
        (deleteAtomicOp name cond cols).mutations = s := by
      apply applyMuts_del_absent
      intro m hm
      obtain ⟨c, hcm, hmc⟩ := List.mem_map.mp hm
      exact ⟨colKey name cond.id c.1, hmc.symm, h c hcm⟩
    have hcommit : s.commit (deleteAtomicOp name cond cols) =
        (true, { s with nextStamp := s.nextStamp + 1 }) := by
      unfold Store.commit
      rw [hchk]
      simp only [List.all_nil, if_true]
      rw [hmuts]
    refine ⟨hchk, ?_⟩
    rw [delete_reaches_commit o name cols cond s hc hwc]
    show ((if (s.commit (deleteAtomicOp name cond cols)).1 = true then
        Except.ok (CommitOutcome.committed s.nextStamp)
      else Except.ok CommitOutcome.conflict),
      (s.commit (deleteAtomicOp name cond cols)).2) =
      (.ok (.committed s.nextStamp), { s with nextStamp := s.nextStamp + 1 })
    rw [hcommit]
    simp

/-- Witness for C5 at a nonexistent row id `5` of a one-row store. -/
theorem update_notfound_delete_noop_witness :
    update oneTable "t" ⟨5, none⟩ [("a", Value.vstr "y")] storeAfterFirst =
      (.error (.rowNotFound 5 "t"), storeAfterFirst) ∧
    (deleteAtomicOp "t" ⟨5, none⟩ [("a", ColType.cStr)]).checks = [] ∧
    delete oneTable "t" ⟨5, none⟩ storeAfterFirst =
      (.ok (.committed storeAfterFirst.nextStamp),
        { storeAfterFirst with
            nextStamp := storeAfterFirst.nextStamp + 1 }) :=
  ⟨update_notfound_delete_noop.1 oneTable "t" [("a", ColType.cStr)]
     ⟨5, none⟩ [("a", Value.vstr "y")] storeAfterFirst
     (by decide) (by decide) (by decide) (by decide),
   (update_notfound_delete_noop.2 oneTable "t" [("a", ColType.cStr)]
     ⟨5, none⟩ storeAfterFirst (by decide) rfl (by decide) (by decide)).1,
   (update_notfound_delete_noop.2 oneTable "t" [("a", ColType.cStr)]
     ⟨5, none⟩ storeAfterFirst (by decide) rfl (by decide) (by decide)).2⟩

/-- C6: a validated `read` returns the row result whose versionstamps
object covers every requested column (absent columns mapped to the
explicit `null` marker, never omitted), whose value is the object of
exactly the requested columns carrying a versionstamp, and whose value
is the no-row `null` exactly when zero requested columns have a
non-null versionstamp — never an error for a positive id. -/
theorem read_result_shape :
    ∀ (o : Options) (name : String) (cols : List (String × ColType))
      (cond : ReadCondition) (columns : Option (List String)) (s : Store),
      lookupTable o name = some cols →
      0 < cond.id →
      columnsArgOk cols columns = true →
      (reqColsOf cols columns).Nodup →
      (Hamster.read o name cond columns s =
        (if ((reqColsOf cols columns).filterMap (fun c =>
            (s.get (colKey name cond.id c)).map
              (fun x => (c, x.1)))).isEmpty then
          .ok { id := cond.id
                value := none
                versionstamps := (reqColsOf cols columns).map (fun c =>
                  (c, s.stampOf (colKey name cond.id c))) }
        else
          .ok { id := cond.id
                value := some ((reqColsOf cols columns).filterMap (fun c =>
                  (s.get (colKey name cond.id c)).map (fun x => (c, x.1))))
                versionstamps := (reqColsOf cols columns).map (fun c =>
                  (c, s.stampOf (colKey name cond.id c))) })) ∧
      (((reqColsOf cols columns).filterMap (fun c =>
          (s.get (colKey name cond.id c)).map
            (fun x => (c, x.1)))).isEmpty = true ↔
        ∀ c ∈ reqColsOf cols columns,
          s.stampOf (colKey name cond.id c) = none) := by
  intro o name cols cond columns s hc hid hco hnd
  constructor
  · unfold Hamster.read
    rw [hc]
    simp only [decide_eq_true hid, if_true, hco]
    have hkeys : (((reqColsOf cols columns).map
        (fun c => (c, s.get (colKey name cond.id c)))).map
          (fun r => r.1)).Nodup := by
      rw [List.map_map]
      show ((reqColsOf cols columns).map (fun c => c)).Nodup
      rw [List.map_id']
      exact hnd
    have hbuild := buildRowVs_spec
      ((reqColsOf cols columns).map
        (fun c => (c, s.get (colKey name cond.id c)))) hkeys
    rw [hbuild, List.filterMap_map, List.map_map]
    rfl
  · rw [List.isEmpty_iff, List.filterMap_eq_nil_iff]
    constructor
    · intro h c hcm
      have hmap := h c hcm
      have hget : s.get (colKey name cond.id c) = none :=
        Option.map_eq_none'.mp hmap
      unfold Store.stampOf
      rw [hget]
      rfl
    · intro h c hcm
      have hst := h c hcm
      unfold Store.stampOf at hst
      have hget : s.get (colKey name cond.id c) = none :=
        Option.map_eq_none'.mp hst
      rw [hget]
      rfl

/-- Witness for C6: reading the one-row store with all columns
requested. -/
theorem read_result_shape_witness :
    Hamster.read oneTable "t" ⟨1⟩ none storeAfterFirst =
      (if ((reqColsOf [("a", ColType.cStr)] none).filterMap (fun c =>
          (storeAfterFirst.get (colKey "t" 1 c)).map
            (fun x => (c, x.1)))).isEmpty then
        .ok { id := 1
              value := none
              versionstamps := (reqColsOf [("a", ColType.cStr)] none).map
                (fun c => (c, storeAfterFirst.stampOf (colKey "t" 1 c))) }
      else
        .ok { id := 1
              value := some ((reqColsOf [("a", ColType.cStr)] none).filterMap
                (fun c => (storeAfterFirst.get (colKey "t" 1 c)).map
                  (fun x => (c, x.1))))
              versionstamps := (reqColsOf [("a", ColType.cStr)] none).map
                (fun c => (c, storeAfterFirst.stampOf (colKey "t" 1 c))) }) :=
  (read_result_shape oneTable "t" [("a", ColType.cStr)] ⟨1⟩ none
    storeAfterFirst (by decide) (by decide) (by decide) (by decide)).1

lemma commit_fail_store (s : Store) (op : AtomicOp)
    (h : (s.commit op).1 = false) : (s.commit op).2 = s := by
  rcases commit_cases s op with ⟨h1, -⟩ | ⟨-, h2⟩
  · rw [h1] at h
    exact absurd h (by simp)
  · exact h2

/-- C7: for insert, update and delete a failed atomic commit is returned
as the typed conflict value inside `Except.ok` — never thrown — and the
store is unchanged by a failed commit; a thrown error (validation,
unknown table, row lookup) always leaves the store unchanged, so no
mutation is attempted before validation succeeds. -/
theorem conflict_returned_errors_thrown :
    (∀ (s : Store) (op : AtomicOp),
      (s.commit op).1 = false → (s.commit op).2 = s) ∧
    (∀ (o : Options) (name : String) (cols : List (String × ColType))
       (row : RowObj) (s : Store) (id : KeyPart) (lastRow : AtomicCheck),
      lookupTable o name = some cols → validateInsert cols row = true →
      generateRowId name s = .ok (id, lastRow) →
      insert o name row s =
        (let r := s.commit (insertAtomicOp name id lastRow row)
         ((if r.1 then Except.ok (InsertOutcome.committed id s.nextStamp)
           else Except.ok InsertOutcome.conflict), r.2))) ∧
    (∀ (o : Options) (name : String) (cols : List (String × ColType))
       (cond : WriteCondition) (row : RowObj) (s : Store),
      lookupTable o name = some cols →
      validateWriteCondition cols cond = true →
      validateUpdateRow cols row = none →
      ((colEntries name cond.id cols s).filter
        (fun e => e.2.isSome)).isEmpty = false →
      update o name cond row s =
        (let r := s.commit
          (updateAtomicOp name cond (colEntries name cond.id cols s) row)
         ((if r.1 then Except.ok (CommitOutcome.committed s.nextStamp)
           else Except.ok CommitOutcome.conflict), r.2))) ∧
    (∀ (o : Options) (name : String) (cols : List (String × ColType))
       (cond : WriteCondition) (s : Store),
      lookupTable o name = some cols →
      validateWriteCondition cols cond = true →
      delete o name cond s =
        (let r := s.commit (deleteAtomicOp name cond cols)
         ((if r.1 then Except.ok (CommitOutcome.committed s.nextStamp)
           else Except.ok CommitOutcome.conflict), r.2))) ∧
    (∀ (o : Options) (name : String) (row : RowObj) (s : Store) (e : Err),
      (insert o name row s).1 = .error e → (insert o name row s).2 = s) ∧
    (∀ (o : Options) (name : String) (cond : WriteCondition) (row : RowObj)
       (s : Store) (e : Err),
      (update o name cond row s).1 = .error e →
        (update o name cond row s).2 = s) ∧
    (∀ (o : Options) (name : String) (cond : WriteCondition) (s : Store)
       (e : Err),
      (delete o name cond s).1 = .error e →
        (delete o name cond s).2 = s) := by
  refine ⟨commit_fail_store, ?ins, ?upd, ?del, ?insErr, ?updErr, ?delErr⟩
  case ins =>
    intro o name cols row s id lastRow hc hval hgen
    exact insert_reaches_commit o name cols row s id lastRow hc hval hgen
  case upd =>
    intro o name cols cond row s hc hwc hvr hpres
    exact update_reaches_commit o name cols cond row s hc hwc hvr hpres
  case del =>
    intro o name cols cond s hc hwc
    exact delete_reaches_commit o name cols cond s hc hwc
  case insErr =>
    intro o name row s e h
    cases hc : lookupTable o name with
    | none =>
      have heq : insert o name row s = (.error (.unknownTable name), s) := by
        unfold insert
        rw [hc]
      rw [heq]
    | some cols =>
      by_cases hval : validateInsert cols row = true
      · cases hgen : generateRowId name s with
        | error e2 =>
          have heq : insert o name row s = (.error e2, s) := by
            unfold insert
            rw [hc]
            simp only [hval, if_true, hgen]
          rw [heq]
        | ok pr =>
          obtain ⟨id, lr⟩ := pr
          rw [insert_reaches_commit o name cols row s id lr hc hval hgen]
            at h
          cases hcm : (s.commit (insertAtomicOp name id lr row)).1 <;>
            simp [hcm] at h
      · have heq : insert o name row s =
            (.error (.validationError "row does not match table schema"),
              s) := by
          unfold insert
          simp only [hc]
          rw [if_neg hval]
        rw [heq]
  case updErr =>
    intro o name cond row s e h
    cases hc : lookupTable o name with
    | none =>
      have heq : update o name cond row s =
          (.error (.unknownTable name), s) := by
        unfold update
        rw [hc]
      rw [heq]
    | some cols =>
      by_cases hwc : validateWriteCondition cols cond = true
      · cases hvr : validateUpdateRow cols row with
        | some e2 =>
          have heq : update o name cond row s = (.error e2, s) := by
            unfold update
            rw [hc]
            simp only [hwc, if_true, hvr]
          rw [heq]
        | none =>
          cases hpres : ((colEntries name cond.id cols s).filter
              (fun e2 => e2.2.isSome)).isEmpty with
          | true =>
            have heq : update o name cond row s =
                (.error (.rowNotFound cond.id name), s) := by
              unfold update
              rw [hc]
              simp only [hwc, if_true, hvr]
              rw [if_pos hpres]
            rw [heq]
          | false =>
            rw [update_reaches_commit o name cols cond row s hc hwc hvr
              hpres] at h
            cases hcm : (s.commit (updateAtomicOp name cond
                (colEntries name cond.id cols s) row)).1 <;>
              simp [hcm] at h
      · have heq : update o name cond row s =
            (.error (.validationError "invalid write condition"), s) := by
          unfold update
          simp only [hc]
          rw [if_neg hwc]
        rw [heq]
  case delErr =>
    intro o name cond s e h
    cases hc : lookupTable o name with
    | none =>
      have heq : delete o name cond s =
          (.error (.unknownTable name), s) := by
        unfold delete
        rw [hc]
      rw [heq]
    | some cols =>
      by_cases hwc : validateWriteCondition cols cond = true
      · rw [delete_reaches_commit o name cols cond s hc hwc] at h
        cases hcm : (s.commit (deleteAtomicOp name cond cols)).1 <;>
          simp [hcm] at h
      · have heq : delete o name cond s =
            (.error (.validationError "invalid write condition"), s) := by
          unfold delete
          simp only [hc]
          rw [if_neg hwc]
        rw [heq]

/-- Witness for C7: a failing commit leaves the empty store unchanged;
validation, row-lookup and condition errors leave their stores
unchanged; a stale caller-supplied versionstamp makes `update` return
the conflict value inside `Except.ok`; a successful insert goes through
the commit equation. -/
theorem conflict_returned_errors_thrown_witness :
    (emptyStore.commit ⟨[([KeyPart.str "q"], some 3)], []⟩).2 =
      emptyStore ∧
    (insert oneTable "t" [("b", Value.vstr "x")] emptyStore).2 =
      emptyStore ∧
    (update oneTable "t" ⟨5, none⟩ [("a", Value.vstr "y")]
      storeAfterFirst).2 = storeAfterFirst ∧
    (delete oneTable "t" ⟨0, none⟩ emptyStore).2 = emptyStore ∧
    (update oneTable "t" ⟨1, some [("a", VsEntry.vsStamp 5)]⟩
      [("a", Value.vstr "q")] storeAfterFirst).1 =
      .ok CommitOutcome.conflict ∧
    (insert oneTable "t" rowSecond storeAfterFirst).1 =
      .ok (InsertOutcome.committed (.int 2) 1) := by
  refine ⟨conflict_returned_errors_thrown.1 emptyStore
      ⟨[([KeyPart.str "q"], some 3)], []⟩ (by decide),
    conflict_returned_errors_thrown.2.2.2.2.1 oneTable "t"
      [("b", Value.vstr "x")] emptyStore
      (.validationError "row does not match table schema") (by decide),
    conflict_returned_errors_thrown.2.2.2.2.2.1 oneTable "t" ⟨5, none⟩
      [("a", Value.vstr "y")] storeAfterFirst (.rowNotFound 5 "t")
      (by decide),
    conflict_returned_errors_thrown.2.2.2.2.2.2 oneTable "t" ⟨0, none⟩
      emptyStore (.validationError "invalid write condition") (by decide),
    ?conflict, ?insertOk⟩
  case conflict =>
    have h := conflict_returned_errors_thrown.2.2.1 oneTable "t"
      [("a", ColType.cStr)] ⟨1, some [("a", VsEntry.vsStamp 5)]⟩
      [("a", Value.vstr "q")] storeAfterFirst
      (by decide) (by decide) (by decide) (by decide)
    rw [h]
    decide
  case insertOk =>
    have h := conflict_returned_errors_thrown.2.1 oneTable "t"
      [("a", ColType.cStr)] rowSecond storeAfterFirst (.int 2)
      ([KeyPart.str "t", KeyPart.int 1, KeyPart.str "a"], some 0)
      (by decide) (by decide) (by decide)
    rw [h]
    decide

/-- C8 (amended): update-row validation accepts a candidate exactly when
every present declared field matches its column type and at least one
declared field is present; a candidate with no declared field (in
particular the empty candidate) is rejected with the exact message
"row must update at least one column"; undeclared fields are NOT
rejected — Zod strip mode drops them from the parse result, the parse
result is discarded, and the committed transaction physically writes
every field of the original candidate, undeclared names included. -/
theorem update_validation_strip_and_write :
    (∀ (cols : List (String × ColType)) (row : RowObj),
      validateUpdateRow cols row = none ↔
        ((∀ f ∈ row, ∀ t, lookupStr cols f.1 = some t →
          f.2.hasType t = true) ∧ stripRow cols row ≠ [])) ∧
    (∀ (cols : List (String × ColType)) (row : RowObj),
      (∀ f ∈ row, ∀ t, lookupStr cols f.1 = some t →
        f.2.hasType t = true) →
      stripRow cols row = [] →
      validateUpdateRow cols row =
        some (.validationError "row must update at least one column")) ∧
    (∀ (o : Options) (name : String) (cols : List (String × ColType))
       (cond : WriteCondition) (row : RowObj) (s : Store),
      lookupTable o name = some cols →
      validateWriteCondition cols cond = true →
      validateUpdateRow cols row = none →
      ((colEntries name cond.id cols s).filter
        (fun e => e.2.isSome)).isEmpty = false →
      (s.commit (updateAtomicOp name cond
        (colEntries name cond.id cols s) row)).1 = true →
      (row.map (fun f => f.1)).Nodup →
      ∀ f ∈ row,
        (update o name cond row s).2.get (colKey name cond.id f.1) =
          some (f.2, s.nextStamp)) := by
  have hall : ∀ (cols : List (String × ColType)) (row : RowObj),
      (row.all (fun f =>
        match lookupStr cols f.1 with
        | some t => f.2.hasType t
        | none => true) = true) ↔
      (∀ f ∈ row, ∀ t, lookupStr cols f.1 = some t →
        f.2.hasType t = true) := by
    intro cols row
    rw [List.all_eq_true]
    constructor
    · intro h f hf t ht
      have h2 := h f hf
      rw [ht] at h2
      exact h2
    · intro h f hf
      cases ht : lookupStr cols f.1 with
      | some t => exact h f hf t ht
      | none => rfl
  refine ⟨?iff, ?msg, ?writes⟩
  case iff =>
    intro cols row
    unfold validateUpdateRow
    by_cases hA : row.all (fun f =>
        match lookupStr cols f.1 with
        | some t => f.2.hasType t
        | none => true) = true
    · rw [if_pos hA]
      by_cases hB : (stripRow cols row).isEmpty = true
      · rw [if_pos hB]
        constructor
        · intro h
          exact absurd h (by simp)
        · intro h
          exact absurd (List.isEmpty_iff.mp hB) h.2
      · rw [if_neg hB]
        constructor
        · intro _
          refine ⟨(hall cols row).mp hA, ?_⟩
          intro hnil
          exact hB (List.isEmpty_iff.mpr hnil)
        · intro _
          rfl
    · rw [if_neg hA]
      constructor
      · intro h
        exact absurd h (by simp)
      · intro h
        exact absurd ((hall cols row).mpr h.1) hA
  case msg =>
    intro cols row h1 h2
    unfold validateUpdateRow
    rw [if_pos ((hall cols row).mpr h1)]
    rw [if_pos (List.isEmpty_iff.mpr h2)]
  case writes =>
    intro o name cols cond row s hc hwc hvr hpres hcm hrownd f hf
    rw [update_reaches_commit o name cols cond row s hc hwc hvr hpres]
    show (s.commit (updateAtomicOp name cond
      (colEntries name cond.id cols s) row)).2.get
        (colKey name cond.id f.1) = some (f.2, s.nextStamp)
    rcases commit_cases s (updateAtomicOp name cond
      (colEntries name cond.id cols s) row) with ⟨-, h2⟩ | ⟨h1, -⟩
    · rw [h2]
      show (applyMuts s s.nextStamp
        (row.map (fun f =>
          Mutation.set (colKey name cond.id f.1) f.2))).get
            (colKey name cond.id f.1) = some (f.2, s.nextStamp)
      exact get_applyMuts_row row (colKey name cond.id)
        (fun a b => colKey_inj name cond.id) hrownd s s.nextStamp f hf
    · rw [h1] at hcm
      exact absurd hcm (by simp)

/-- Witness for C8's amended theorem: the empty candidate is rejected
with the exact message, a candidate with one declared and one
undeclared field passes, and its commit writes the undeclared column. -/
theorem update_validation_strip_and_write_witness :
    validateUpdateRow [("a", ColType.cStr)] [] =
      some (.validationError "row must update at least one column") ∧
    validateUpdateRow [("a", ColType.cStr)] rowWithExtra = none ∧
    (update oneTable "t" ⟨1, none⟩ rowWithExtra storeOneRow).2.get
      (colKey "t" 1 "b") = some (Value.vstr "z", storeOneRow.nextStamp) := by
  refine ⟨update_validation_strip_and_write.2.1 [("a", ColType.cStr)] []
      (by decide) (by decide),
    (update_validation_strip_and_write.1 [("a", ColType.cStr)]
      rowWithExtra).mpr ⟨by decide, by decide⟩,
    update_validation_strip_and_write.2.2 oneTable "t" [("a", ColType.cStr)]
      ⟨1, none⟩ rowWithExtra storeOneRow (by decide) (by decide) (by decide)
      (by decide) (by decide) (by decide) ("b", Value.vstr "z") (by decide)⟩

lemma row_ne_nil_of_validate (cols : List (String × ColType)) (row : RowObj)
    (hcols : cols ≠ []) (hval : validateInsert cols row = true) :
    row ≠ [] := by
  intro hr
  subst hr
  obtain ⟨c0, rest, rfl⟩ := List.exists_cons_of_ne_nil hcols
  unfold validateInsert at hval
  simp [lookupStr, List.find?] at hval

lemma insert_step_common (o : Options) (t : String)
    (cols : List (String × ColType)) (row : RowObj) (K : Nat) (s : Store)
    (chk : AtomicCheck)
    (hc : lookupTable o t = some cols)
    (hval : validateInsert cols row = true)
    (hgen : generateRowId t s = .ok (.int ((K : Int) + 1), chk))
    (hchkOk : s.checkOk chk = true)
    (hnd : keysNodup s)
    (hshape : ∀ e ∈ s.entries, ∃ i c,
      e.1 = [KeyPart.str t, KeyPart.int i, KeyPart.str c] ∧
        1 ≤ i ∧ i ≤ (K : Int))
    (hrow : row ≠ []) :
    (insert o t row s).1 =
      .ok (.committed (.int ((K : Int) + 1)) s.nextStamp) ∧
    tableInv t (K + 1) (insert o t row s).2 ∧
    (insert o t row s).2.nextStamp = s.nextStamp + 1 := by
  have hreach := insert_reaches_commit o t cols row s
    (.int ((K : Int) + 1)) chk hc hval hgen
  have hall : (insertAtomicOp t (.int ((K : Int) + 1)) chk
      row).checks.all (fun c => s.checkOk c) = true := by
    simp [insertAtomicOp, hchkOk]
  have hcommit1 : (s.commit (insertAtomicOp t (.int ((K : Int) + 1)) chk
      row)).1 = true := by
    unfold Store.commit
    rw [if_pos hall]
  have hs2 : (s.commit (insertAtomicOp t (.int ((K : Int) + 1)) chk
      row)).2 =
      { applyMuts s s.nextStamp
          (insertAtomicOp t (.int ((K : Int) + 1)) chk row).mutations with
        nextStamp := s.nextStamp + 1 } := by
    unfold Store.commit
    rw [if_pos hall]
  have hins2 : (insert o t row s).2 =
      { applyMuts s s.nextStamp
          (insertAtomicOp t (.int ((K : Int) + 1)) chk row).mutations with
        nextStamp := s.nextStamp + 1 } := by
    rw [hreach]
    exact hs2
  refine ⟨?out, ?inv, ?stamp⟩
  case out =>
    rw [hreach]
    show (if (s.commit (insertAtomicOp t (.int ((K : Int) + 1)) chk
        row)).1 = true then
        Except.ok (InsertOutcome.committed (.int ((K : Int) + 1))
          s.nextStamp)
      else Except.ok InsertOutcome.conflict) =
      Except.ok (InsertOutcome.committed (.int ((K : Int) + 1)) s.nextStamp)
    rw [if_pos hcommit1]
  case stamp =>
    rw [hins2]
  case inv =>
    rw [hins2]
    have hcast : ((K + 1 : Nat) : Int) = (K : Int) + 1 := by
      push_cast
      ring
    refine ⟨?nd, ?shape, ?zero, ?max⟩
    case nd =>
      exact keysNodup_applyMuts _ s s.nextStamp hnd
    case shape =>
      intro e he
      rcases mem_applyMuts _ s s.nextStamp e he with h1 | ⟨k, v, hm, he2⟩
      · obtain ⟨i, c, hk, hb1, hb2⟩ := hshape e h1
        exact ⟨i, c, hk, hb1, by omega⟩
      · obtain ⟨f, hf, hfeq⟩ := List.mem_map.mp hm
        have hk : k = [KeyPart.str t, KeyPart.int ((K : Int) + 1),
            KeyPart.str f.1] ∧ v = f.2 := by
          have := hfeq
          injection this with h1 h2
          exact ⟨h1.symm, h2.symm⟩
        refine ⟨(K : Int) + 1, f.1, ?_, by omega, by omega⟩
        rw [he2, hk.1]
    case zero =>
      intro h
      omega
    case max =>
      intro _
      obtain ⟨f0, rest, rfl⟩ := List.exists_cons_of_ne_nil hrow
      have hset : Mutation.set [KeyPart.str t, KeyPart.int ((K : Int) + 1),
          KeyPart.str f0.1] f0.2 ∈
          (insertAtomicOp t (.int ((K : Int) + 1)) chk
            (f0 :: rest)).mutations :=
        List.mem_map_of_mem _ (List.mem_cons_self _ _)
      have hallset : ∀ m ∈ (insertAtomicOp t (.int ((K : Int) + 1)) chk
          (f0 :: rest)).mutations, ∃ k2 v2, m = Mutation.set k2 v2 := by
        intro m hm
        obtain ⟨f, -, hfeq⟩ := List.mem_map.mp hm
        exact ⟨_, _, hfeq.symm⟩
      obtain ⟨e, he, hek⟩ := key_present_applyMuts _ s s.nextStamp _ _
        hallset hset
      refine ⟨e, he, f0.1, ?_⟩
      rw [hcast, hek]

lemma insert_step (o : Options) (t : String)
    (cols : List (String × ColType)) (row : RowObj) (K : Nat) (s : Store)
    (hc : lookupTable o t = some cols) (hcols : cols ≠ [])
    (hval : validateInsert cols row = true) (hinv : tableInv t K s) :
    (insert o t row s).1 =
      .ok (.committed (.int ((K : Int) + 1)) s.nextStamp) ∧
    tableInv t (K + 1) (insert o t row s).2 ∧
    (insert o t row s).2.nextStamp = s.nextStamp + 1 := by
  obtain ⟨hnd, hshape, hzero, hmax⟩ := hinv
  have hrow := row_ne_nil_of_validate cols row hcols hval
  rcases Nat.eq_zero_or_pos K with hK | hK
  · subst hK
    have hent : s.entries = [] := hzero rfl
    have hnone : s.lastEntryOf [KeyPart.str t] = none := by
      apply lastEntryOf_eq_none
      intro e he
      rw [hent] at he
      exact absurd he (List.not_mem_nil e)
    have hgen : generateRowId t s =
        .ok (.int ((0 : Nat) + 1 : Int),
          ([KeyPart.str t, KeyPart.int 1], none)) := by
      unfold generateRowId
      rw [hnone]
      norm_num
    have hchkOk : s.checkOk ([KeyPart.str t, KeyPart.int 1], none) =
        true := by
      unfold Store.checkOk Store.stampOf Store.get
      rw [hent]
      rfl
    exact insert_step_common o t cols row 0 s _ hc hval hgen hchkOk hnd
      hshape hrow
  · obtain ⟨w, hw, cw, hwkey⟩ := hmax hK
    have hwext : keyExtends [KeyPart.str t] w.1 = true := by
      rw [hwkey]
      simp [keyExtends]
    cases hlast : s.lastEntryOf [KeyPart.str t] with
    | none => exact absurd hlast (lastEntryOf_ne_none s _ w hw hwext)
    | some r =>
      obtain ⟨hrmem, hrext, hrdom⟩ := lastEntryOf_spec s _ r hlast
      obtain ⟨i, ci, hrkey, hi1, hiK⟩ := hshape r hrmem
      have hiK2 : i = (K : Int) := by
        by_contra hne
        have hilt : i < (K : Int) := lt_of_le_of_ne hiK hne
        have hltb : Key.ltb r.1 w.1 = true := by
          rw [hrkey, hwkey]
          simp [Key.ltb, KeyPart.ltb, hilt]
        rw [hrdom w hw hwext] at hltb
        exact Bool.noConfusion hltb
      obtain ⟨rk, rv, rst⟩ := r
      simp only at hrkey
      have hgen : generateRowId t s =
          .ok (.int ((K : Int) + 1), (rk, some rst)) := by
        unfold generateRowId
        rw [hlast, hrkey]
        show Except.ok (jsBigAddOne (KeyPart.int i),
            ([KeyPart.str t, KeyPart.int i, KeyPart.str ci], some rst)) =
          Except.ok (KeyPart.int ((K : Int) + 1),
            ([KeyPart.str t, KeyPart.int i, KeyPart.str ci], some rst))
        rw [hiK2]
        rfl
      have hchkOk : s.checkOk (rk, some rst) = true := by
        unfold Store.checkOk Store.stampOf
        rw [get_eq_some_of_mem s (rk, rv, rst) hnd hrmem]
        simp
      exact insert_step_common o t cols row K s _ hc hval hgen hchkOk hnd
        hshape hrow

lemma insertRun_ids (o : Options) (t : String)
    (cols : List (String × ColType)) (rows : List RowObj)
    (hc : lookupTable o t = some cols) (hcols : cols ≠ [])
    (hval : ∀ r ∈ rows, validateInsert cols r = true) :
    ∀ (K : Nat) (s : Store), tableInv t K s →
      (insertRun o t rows s).1 =
        (List.range rows.length).map (fun i =>
          .ok (.committed (.int ((K : Int) + 1 + i)) (s.nextStamp + i))) ∧
      tableInv t (K + rows.length) (insertRun o t rows s).2 := by
  induction rows with
  | nil =>
    intro K s hinv
    exact ⟨rfl, by simpa using hinv⟩
  | cons r rest ih =>
    intro K s hinv
    obtain ⟨h1, h2, h3⟩ := insert_step o t cols r K s hc hcols
      (hval r (List.mem_cons_self _ _)) hinv
    obtain ⟨ih1, ih2⟩ := ih
      (fun r2 hr2 => hval r2 (List.mem_cons_of_mem _ hr2))
      (K + 1) (insert o t r s).2 h2
    constructor
    · show (insert o t r s).1 ::
        (insertRun o t rest (insert o t r s).2).1 = _
      rw [h1, ih1, h3]
      simp only [List.length_cons]
      rw [List.range_succ_eq_map, List.map_cons, List.map_map]
      congr 1
      apply List.map_congr_left
      intro a ha
      simp only [Function.comp_apply]
      have e1 : ((K + 1 : Nat) : Int) + 1 + (a : Int) =
          (K : Int) + 1 + ((a + 1 : Nat) : Int) := by
        push_cast
        ring
      have e2 : s.nextStamp + 1 + a = s.nextStamp + (a + 1) := by
        omega
      rw [e1, e2]
    · show tableInv t (K + (rest.length + 1))
        (insertRun o t rest (insert o t r s).2).2
      rw [show K + (rest.length + 1) = (K + 1) + rest.length from by omega]
      exact ih2

/-- C4 (amended): starting from the empty store, N sequential inserts of
valid rows into a table with a nonempty column set all succeed and
allocate ids exactly 1, …, N in order.  The never-reused part of the
original claim is false: the next id is computed solely from the
greatest entry currently present, so deleting the row with the greatest
id lets a later insert allocate that id again. -/
theorem insert_ids_sequential (o : Options) (t : String)
    (cols : List (String × ColType)) (rows : List RowObj)
    (hc : lookupTable o t = some cols) (hcols : cols ≠ [])
    (hval : ∀ r ∈ rows, validateInsert cols r = true) :
    (insertRun o t rows emptyStore).1 =
      (List.range rows.length).map (fun i =>
        .ok (.committed (.int ((i : Int) + 1)) i)) := by
  have hinv : tableInv t 0 emptyStore := by
    refine ⟨by simp [keysNodup, emptyStore], ?_, fun _ => rfl,
      fun h => absurd h (by omega)⟩
    intro e he
    exact absurd he (List.not_mem_nil e)
  have h := insertRun_ids o t cols rows hc hcols hval 0 emptyStore hinv
  rw [h.1]
  apply List.map_eq_map_iff.mpr
  intro i hi
  show Except.ok (InsertOutcome.committed
      (.int (((0 : Nat) : Int) + 1 + i)) (emptyStore.nextStamp + i)) =
    Except.ok (InsertOutcome.committed (.int ((i : Int) + 1)) i)
  have e1 : ((0 : Nat) : Int) + 1 + i = (i : Int) + 1 := by
    push_cast
    ring
  have e2 : emptyStore.nextStamp + i = i := by
    show 0 + i = i
    omega
  rw [e1, e2]

/-- Witness for C4's amended theorem: two sequential inserts into the
empty store allocate ids 1 and 2. -/
theorem insert_ids_sequential_witness :
    (insertRun oneTable "t" [rowFirst, rowSecond] emptyStore).1 =
      (List.range 2).map (fun i =>
        .ok (.committed (.int ((i : Int) + 1)) i)) :=
  insert_ids_sequential oneTable "t" [("a", ColType.cStr)]
    [rowFirst, rowSecond] (by decide) (by decide) (by decide)

end Hamster
